import Mathlib

/-!
Verification of the dsa sequence-container library against its specification.

The C++ sources are shallowly embedded: each container becomes a Lean
structure holding its member variables, each member function a pure function
(fallible functions return Except, or pair the result with the post-state
where the source can throw after mutating).  Machine integers (std::size_t)
are modelled as Nat; the places where C++ unsigned wraparound or truncating
subtraction matters are noted at the definition.
-/

deriving instance DecidableEq for Except

namespace Dsa

/-- Error kinds mirroring the exception types thrown by the C++ code:
std::out_of_range, std::invalid_argument, std::logic_error. -/
inductive Err where
  | outOfRange
  | invalidArgument
  | logicError
deriving Repr, DecidableEq

/-! ## RootishArray: closed-form index computation

Source: src/include/dsa/rootish_array.hpp, RootishArray::elementIndex.
The C++ computes with doubles:
  blockApprox = (-3 + sqrt(9 + 8 * pos)) / 2;  block = ceil(blockApprox);
  local = pos - block * (block + 1) / 2.
We embed the exact real-arithmetic meaning of that formula: the ceiling of
(-3 + sqrt(9 + 8 pos)) / 2 is the least b with (2 b + 3)^2 >= 9 + 8 pos,
i.e. the least b with 2 pos <= b * (b + 3).  elementBlock computes that
least b; the agreement with the real ceiling is proved below
(elementBlock_eq_ceil). -/

/-- Upward search for the least b at or above the first argument with
2 pos <= b (b + 3); the fuel argument bounds the search structurally so the
function reduces in the kernel. -/
def elementBlockAux (pos : Nat) : Nat → Nat → Nat
  | b, 0 => b
  | b, fuel + 1 => if 2 * pos ≤ b * (b + 3) then b else elementBlockAux pos (b + 1) fuel

/-- The block index computed by RootishArray::elementIndex: least b with
2 pos <= b (b + 3), the exact value of ceil((-3 + sqrt(9 + 8 pos)) / 2). -/
def elementBlock (pos : Nat) : Nat :=
  elementBlockAux pos 0 (2 * pos)

/-- RootishArray::elementIndex: (block, local) with
local = pos - block (block + 1) / 2. -/
def elementIndex (pos : Nat) : Nat × Nat :=
  (elementBlock pos, pos - elementBlock pos * (elementBlock pos + 1) / 2)

theorem elementBlockAux_spec (pos : Nat) :
    ∀ fuel b, 2 * pos ≤ (b + fuel) * (b + fuel + 3) →
      2 * pos ≤ elementBlockAux pos b fuel * (elementBlockAux pos b fuel + 3) := by
  intro fuel
  induction fuel with
  | zero =>
    intro b h
    simp only [elementBlockAux]
    simp only [Nat.add_zero] at h
    exact h
  | succ n ih =>
    intro b h
    by_cases hb : 2 * pos ≤ b * (b + 3)
    · simp only [elementBlockAux, hb, if_true, if_pos]
    · have h' : 2 * pos ≤ (b + 1 + n) * (b + 1 + n + 3) := by
        have : b + (n + 1) = b + 1 + n := by omega
        rw [this] at h
        exact h
      simpa [elementBlockAux, hb] using ih (b + 1) h'

theorem elementBlockAux_min (pos : Nat) :
    ∀ fuel b m, b ≤ m → m < elementBlockAux pos b fuel → ¬2 * pos ≤ m * (m + 3) := by
  intro fuel
  induction fuel with
  | zero => intro b m hbm hlt; simp [elementBlockAux] at hlt; omega
  | succ n ih =>
    intro b m hbm hlt
    by_cases hb : 2 * pos ≤ b * (b + 3)
    · simp [elementBlockAux, hb] at hlt; omega
    · simp only [elementBlockAux, hb, if_false] at hlt
      rcases Nat.eq_or_lt_of_le hbm with rfl | hbm'
      · exact hb
      · exact ih (b + 1) m hbm' hlt

theorem elementBlock_spec (pos : Nat) : 2 * pos ≤ elementBlock pos * (elementBlock pos + 3) := by
  apply elementBlockAux_spec pos (2 * pos) 0
  nlinarith

theorem elementBlock_min (pos m : Nat) (h : m < elementBlock pos) : m * (m + 3) < 2 * pos := by
  have := elementBlockAux_min pos (2 * pos) 0 m (Nat.zero_le m) h
  omega

theorem elementBlock_tri_le (pos : Nat) :
    elementBlock pos * (elementBlock pos + 1) / 2 ≤ pos := by
  set B := elementBlock pos with hB
  rcases Nat.eq_zero_or_pos B with h0 | hpos
  · simp [h0]
  · obtain ⟨m, hm⟩ := Nat.exists_eq_add_of_lt hpos
    have hmin : m * (m + 3) < 2 * pos := by
      apply elementBlock_min
      omega
    have heven : ∃ t, B * (B + 1) = 2 * t := by
      rcases Nat.even_mul_succ_self B with ⟨t, ht⟩
      exact ⟨t, by omega⟩
    obtain ⟨t, ht⟩ := heven
    have hBm : B = m + 1 := by omega
    have hlt : B * (B + 1) ≤ 2 * pos + 1 := by nlinarith
    have hne : B * (B + 1) ≠ 2 * pos + 1 := by omega
    have : t ≤ pos := by omega
    calc B * (B + 1) / 2 = t := by omega
    _ ≤ pos := this

theorem elementBlock_local_le (pos : Nat) :
    pos - elementBlock pos * (elementBlock pos + 1) / 2 ≤ elementBlock pos := by
  set B := elementBlock pos with hB
  have hspec : 2 * pos ≤ B * (B + 3) := elementBlock_spec pos
  obtain ⟨t, ht⟩ : ∃ t, B * (B + 1) = 2 * t := by
    rcases Nat.even_mul_succ_self B with ⟨t, ht⟩
    exact ⟨t, by omega⟩
  have h3 : B * (B + 3) = 2 * t + 2 * B := by ring_nf; ring_nf at ht; omega
  have : pos ≤ t + B := by omega
  have hdiv : B * (B + 1) / 2 = t := by omega
  omega

/-! ## ArrayList (src/include/dsa/array_list.hpp)

The block type of RootishArray.  A block keeps its element list (logical
contents of the RawBuffer prefix [0, m_size)) and its capacity
(m_buffer.size()).  insert grows the buffer by doubling when full
(ArrayList::grow) and throws std::out_of_range when pos > m_size; remove
throws when pos >= m_size. -/

structure Block (T : Type) where
  cap : Nat
  data : List T
deriving Repr, DecidableEq

/-- ArrayList::reserve: reallocate only if count > capacity. -/
def alReserve {T : Type} (blk : Block T) (count : Nat) : Block T :=
  { blk with cap := max blk.cap count }

/-- ArrayList::grow: reserve(capacity == 0 ? 1 : 2 * capacity). -/
def alGrow {T : Type} (blk : Block T) : Block T :=
  alReserve blk (if blk.cap = 0 then 1 else 2 * blk.cap)

/-- ArrayList::insert(pos, element). -/
def alInsert {T : Type} (blk : Block T) (pos : Nat) (v : T) : Except Err (Block T) :=
  if pos > blk.data.length then .error .outOfRange
  else
    let blk1 := if blk.data.length = blk.cap then alGrow blk else blk
    .ok { blk1 with data := blk1.data.insertIdx pos v }

/-- ArrayList::remove(pos): returns the removed value and the new block. -/
def alRemove {T : Type} (blk : Block T) (pos : Nat) : Except Err (T × Block T) :=
  if h : pos < blk.data.length then
    .ok (blk.data.get ⟨pos, h⟩, { blk with data := blk.data.eraseIdx pos })
  else .error .outOfRange

/-- ArrayList::push_back = insert(m_size, value). -/
def alPushBack {T : Type} (blk : Block T) (v : T) : Except Err (Block T) :=
  alInsert blk blk.data.length v

/-- ArrayList::pop_back = remove(m_size - 1); with m_size = 0 the C++
computes the huge value size_t(-1) and remove throws, and the Nat model
computes remove 0 on an empty list which equally throws. -/
def alPopBack {T : Type} (blk : Block T) : Except Err (T × Block T) :=
  alRemove blk (blk.data.length - 1)

/-! ## RootishArray (src/include/dsa/rootish_array.hpp)

m_blocks is the ordered block sequence.  Operations that can throw after
having already mutated parts of the structure return the error paired with
the state reached at the throw point, mirroring the state of the C++ object
when the exception propagates. -/

structure RootishArray (T : Type) where
  blocks : List (Block T)
deriving Repr, DecidableEq

def rootishEmpty (T : Type) : RootishArray T := ⟨[]⟩

/-- RootishArray::block(pos) = m_blocks.at(pos); out-of-range access is
modelled by a default empty block (unreachable in the proofs below). -/
def getBlockR {T : Type} (s : RootishArray T) (i : Nat) : Block T :=
  s.blocks.getD i ⟨0, []⟩

def setBlockR {T : Type} (s : RootishArray T) (i : Nat) (blk : Block T) : RootishArray T :=
  ⟨s.blocks.set i blk⟩

/-- RootishArray::nearEmpty = block(m_blocks.size() - 2). -/
def nearEmptyR {T : Type} (s : RootishArray T) : Block T :=
  getBlockR s (s.blocks.length - 2)

/-- RootishArray::size: (numBlocks (numBlocks+1) / 2) - (numBlocks - lastBlockSize)
with numBlocks = m_blocks.size() - 1 and lastBlockSize = nearEmpty().size(). -/
def sizeR {T : Type} (s : RootishArray T) : Nat :=
  if s.blocks.length = 0 then 0
  else
    let numBlocks := s.blocks.length - 1
    numBlocks * (numBlocks + 1) / 2 - (numBlocks - (nearEmptyR s).data.length)

/-- RootishArray::grow: m_blocks.push_back(Block with no storage), then
reserve(m_blocks.size()) on the fresh block. -/
def growR {T : Type} (s : RootishArray T) : RootishArray T :=
  ⟨s.blocks ++ [⟨s.blocks.length + 1, []⟩]⟩

/-- RootishArray::shrink: m_blocks.pop_back(). -/
def shrinkR {T : Type} (s : RootishArray T) : RootishArray T :=
  ⟨s.blocks.dropLast⟩

/-- The shift loop of RootishArray::insert:
for (i = m_blocks.size() - 2; i > blockIdx; --i)
  block(i).insert(0, block(i - 1).pop_back());
The second argument counts the remaining iterations, the third is the
current index i.  pop_back throws on an empty source block, at which point
the loop aborts with the state reached so far. -/
def rippleIns (T : Type) : RootishArray T → Nat → Nat → Except Err Unit × RootishArray T
  | s, 0, _ => (.ok (), s)
  | s, k + 1, i =>
    match alPopBack (getBlockR s (i - 1)) with
    | .error e => (.error e, s)
    | .ok (x, prevBlk) =>
      let s1 := setBlockR s (i - 1) prevBlk
      match alInsert (getBlockR s1 i) 0 x with
      | .error e => (.error e, s1)
      | .ok curBlk => rippleIns T (setBlockR s1 i curBlk) k (i - 1)

/-- The shift loop of RootishArray::remove:
for (i = blockIdx; i < m_blocks.size() - 2; ++i)
  block(i).push_back(block(i + 1).remove(0));
The second argument counts remaining iterations, the third is i. -/
def rippleRem (T : Type) : RootishArray T → Nat → Nat → Except Err Unit × RootishArray T
  | s, 0, _ => (.ok (), s)
  | s, k + 1, i =>
    match alRemove (getBlockR s (i + 1)) 0 with
    | .error e => (.error e, s)
    | .ok (x, nextBlk) =>
      let s1 := setBlockR s (i + 1) nextBlk
      match alPushBack (getBlockR s1 i) x with
      | .error e => (.error e, s1)
      | .ok curBlk => rippleRem T (setBlockR s1 i curBlk) k (i + 1)

/-- RootishArray::insert(pos, value).  Returns the error (if any) together
with the state of the object at the point the call returns or throws. -/
def insertR {T : Type} (s : RootishArray T) (pos : Nat) (v : T) :
    Except Err Unit × RootishArray T :=
  if pos > sizeR s then (.error .outOfRange, s)
  else if sizeR s = 0 then
    let s1 := growR (growR s)
    match alPushBack (getBlockR s1 0) v with
    | .error e => (.error e, s1)
    | .ok blk => (.ok (), setBlockR s1 0 blk)
  else
    let s1 := if (nearEmptyR s).data.length = (nearEmptyR s).cap then growR s else s
    let bi := (elementIndex pos).1
    match rippleIns T s1 (s1.blocks.length - 2 - bi) (s1.blocks.length - 2) with
    | (.error e, s2) => (.error e, s2)
    | (.ok _, s2) =>
      match alInsert (getBlockR s2 bi) (elementIndex pos).2 v with
      | .error e => (.error e, s2)
      | .ok blk => (.ok (), setBlockR s2 bi blk)

/-- RootishArray::remove(pos).  Returns the removed value or the error,
together with the state at the point the call returns or throws. -/
def removeR {T : Type} (s : RootishArray T) (pos : Nat) :
    Except Err T × RootishArray T :=
  if pos ≥ sizeR s then (.error .outOfRange, s)
  else
    let bi := (elementIndex pos).1
    match alRemove (getBlockR s bi) (elementIndex pos).2 with
    | .error e => (.error e, s)
    | .ok (value, blk) =>
      let s1 := setBlockR s bi blk
      match rippleRem T s1 (s1.blocks.length - 2 - bi) bi with
      | (.error e, s2) => (.error e, s2)
      | (.ok _, s2) =>
        if (nearEmptyR s2).data.length = 0 ∧ s2.blocks.length > 2 then (.ok value, shrinkR s2)
        else (.ok value, s2)

/-- RootishArray::push_back = insert(size(), value). -/
def pushBackR {T : Type} (s : RootishArray T) (v : T) : Except Err Unit × RootishArray T :=
  insertR s (sizeR s) v

/-- RootishArray::pop_back = remove(size() - 1). -/
def popBackR {T : Type} (s : RootishArray T) : Except Err T × RootishArray T :=
  removeR s (sizeR s - 1)

/-! The states reached by short operation sequences from the empty
RootishArray that exhibit the defect in the remove path: removing the last
element leaves the residual blocks behind (the source file documents in its
invariant notes 1 and 2 that an empty array has no blocks and that at most
one trailing block is empty), after which insert re-runs its two initial
grow() calls on top of the residual blocks and the block sequence and
size() are corrupted. -/

/-- The state after push_back(1) on an empty RootishArray:
blocks (size/cap) = 1/1, 0/2. -/
def rootishOnePush : RootishArray Nat :=
  (pushBackR (rootishEmpty Nat) 1).2

/-- The state after push_back(1); pop_back(): size() = 0 but the two blocks
remain, contradicting invariant note 2 of the source. -/
def rootishEmptied : RootishArray Nat :=
  (popBackR rootishOnePush).2

/-- The state after push_back(1); pop_back(); push_back(2): the insert took
the size() == 0 path and grew two more blocks on top of the residual ones. -/
def rootishBugState : RootishArray Nat :=
  (pushBackR rootishEmptied 2).2

/-- The state after push_back(1); push_back(2) (no defect involved). -/
def rootishTwoPush : RootishArray Nat :=
  (pushBackR rootishOnePush 2).2

/-- C2: the claim that at most the last block has size < capacity fails on
the code.  Already after push_back(1); push_back(2) the healthy state has
blocks (size/cap) 1/1, 1/2, 0/3: the middle block is partially filled and
is not the last.  Worse, after push_back(1); pop_back(); push_back(2) the
state is 1/1, 0/2, 0/3, 0/4 (three trailing partially filled blocks, in
breach of the invariant notes in the source file) and size() reports 3
instead of 1. -/
theorem rootish_partial_block_invariant_violated :
    rootishTwoPush.blocks.map (fun blk => (blk.data.length, blk.cap)) =
      [(1, 1), (1, 2), (0, 3)] ∧
    1 + 1 < rootishTwoPush.blocks.length ∧
    (getBlockR rootishTwoPush 1).data.length < (getBlockR rootishTwoPush 1).cap ∧
    rootishBugState.blocks.map (fun blk => (blk.data.length, blk.cap)) =
      [(1, 1), (0, 2), (0, 3), (0, 4)] ∧
    sizeR rootishBugState = 3 := by
  refine ⟨by decide, by decide, by decide, by decide, by decide⟩

/-- C9: the round-trip fails on the code.  From the reachable state
rootishEmptied (push_back(1); pop_back(); size 0), insert(0, 5) succeeds but
the immediately following remove(0) throws std::out_of_range instead of
returning 5. -/
theorem rootish_round_trip_violated :
    sizeR rootishEmptied = 0 ∧
    (insertR rootishEmptied 0 5).1 = .ok () ∧
    (removeR (insertR rootishEmptied 0 5).2 0).1 = .error .outOfRange := by
  refine ⟨by decide, by decide, by decide⟩

/-- C8: a caller-facing error that does not leave the structure unchanged.
In the reachable state rootishBugState, remove(0) throws std::out_of_range
(raised by the shift loop) but the value 2 has already been removed from
block 0 by the time the exception propagates. -/
theorem rootish_failed_remove_mutates :
    (getBlockR rootishBugState 0).data = [2] ∧
    (removeR rootishBugState 0).1 = .error .outOfRange ∧
    (getBlockR (removeR rootishBugState 0).2 0).data = [] ∧
    (removeR rootishBugState 0).2 ≠ rootishBugState := by
  refine ⟨by decide, by decide, by decide, by decide⟩

/-! ## CircularBuffer (src/include/dsa/circular_buffer.hpp)

The RawBuffer arena is a list of optional slots (none = unconstructed),
m_head is an index, m_tail is an index or none (the npos sentinel: the
buffer holds exactly capacity() elements).  Reading an unconstructed slot
is undefined behaviour in C++; the model returns the Inhabited default. -/

inductive BufferCapacityPolicy where
  | fixedCapacity
  | dynamicCapacity
deriving Repr, DecidableEq

inductive BufferStorePolicy where
  | replaceOnFull
  | throwOnFull
deriving Repr, DecidableEq

inductive BufferResizePolicy where
  | discardOld
  | discardNew
deriving Repr, DecidableEq

structure BufferPolicy where
  capacityPolicy : BufferCapacityPolicy
  storePolicy : BufferStorePolicy
deriving Repr, DecidableEq

/-- The default BufferPolicy: FixedCapacity, ReplaceOnFull. -/
def defaultBufferPolicy : BufferPolicy :=
  ⟨.fixedCapacity, .replaceOnFull⟩

structure CircularBuffer (T : Type) where
  buffer : List (Option T)
  head : Nat
  tail : Option Nat
  policy : BufferPolicy
deriving Repr, DecidableEq

/-- CircularBuffer::capacity = m_buffer.size(). -/
def capC {T : Type} (s : CircularBuffer T) : Nat := s.buffer.length

/-- CircularBuffer::size: capacity if m_tail == npos, else
(m_tail + capacity - m_head) mod capacity. -/
def sizeC {T : Type} (s : CircularBuffer T) : Nat :=
  match s.tail with
  | none => capC s
  | some t => (t + capC s - s.head) % capC s

/-- The CircularBuffer(capacity, policy) constructor: m_head = 0,
m_tail = (capacity == 0 ? npos : 0). -/
def mkC (T : Type) (capacity : Nat) (policy : BufferPolicy) : CircularBuffer T :=
  ⟨List.replicate capacity none, 0, if capacity = 0 then none else some 0, policy⟩

/-- RawBuffer::at(i) (read). -/
def readSlot {T : Type} [Inhabited T] (s : CircularBuffer T) (i : Nat) : T :=
  (s.buffer.getD i none).getD default

/-- RawBuffer::construct(i, v) and assignment to at(i) (write). -/
def writeSlot {T : Type} (s : CircularBuffer T) (i : Nat) (v : T) : CircularBuffer T :=
  { s with buffer := s.buffer.set i (some v) }

/-- RawBuffer::destroy(i). -/
def destroySlot {T : Type} (s : CircularBuffer T) (i : Nat) : CircularBuffer T :=
  { s with buffer := s.buffer.set i none }

/-- The logical element sequence e0 .. e(S-1): logical index i lives in
physical slot (m_head + i) mod capacity. -/
def logicalList {T : Type} [Inhabited T] (s : CircularBuffer T) : List T :=
  (List.range (sizeC s)).map (fun i => readSlot s ((s.head + i) % capC s))

/-- CircularBuffer::clear: destroy the size() live slots, m_head = 0,
m_tail = 0. -/
def clearC {T : Type} (s : CircularBuffer T) : CircularBuffer T :=
  { buffer := (List.range (sizeC s)).foldl (fun buf i => buf.set ((s.head + i) % capC s) none) s.buffer,
    head := 0, tail := some 0, policy := s.policy }

/-- CircularBuffer::resize(newCapacity, policy); mirrors the four branches
of the source (newCapacity 0 / unchanged / empty / grow) plus the shrink
path with its DiscardOld and DiscardNew loops. -/
def resizeC {T : Type} [Inhabited T] (s : CircularBuffer T) (newCap : Nat)
    (rpol : BufferResizePolicy) : CircularBuffer T :=
  if newCap = 0 then
    let s1 := clearC s
    { s1 with tail := none }
  else if newCap = capC s then s
  else if sizeC s = 0 then
    { buffer := List.replicate newCap none, head := 0, tail := some 0, policy := s.policy }
  else if newCap > capC s then
    let n := sizeC s
    let newBuf := (List.range newCap).map
      (fun i => if i < n then some (readSlot s ((s.head + i) % capC s)) else none)
    let t := match s.tail with
      | none => capC s
      | some t0 => (t0 + capC s - s.head) % capC s
    { buffer := newBuf, head := 0, tail := some t, policy := s.policy }
  else
    let count := sizeC s
    let offset := if count ≤ newCap then 0 else count - newCap
    let m := min newCap count
    let newBuf := match rpol with
      | .discardOld =>
        (List.range newCap).map
          (fun i => if i < m then some (readSlot s ((s.head + offset + i) % capC s)) else none)
      | .discardNew =>
        let e0 := match s.tail with
          | none => s.head
          | some t0 => t0
        let e1 := (e0 + capC s - offset) % capC s
        (List.range newCap).map
          (fun i => if i < m then some (readSlot s ((e1 + (m - i) * (capC s - 1)) % capC s)) else none)
    { buffer := newBuf, head := 0,
      tail := if count ≤ newCap then some count else none, policy := s.policy }

/-- The unconditional write part of CircularBuffer::push_back, after the
zero-capacity and full-buffer policy handling: the m_tail != npos branch
constructs at m_tail and advances it (wrapping, then collapsing to npos on
collision with m_head); the npos branch assigns over the slot at m_head
(evicting the oldest front element) and advances m_head. -/
def pushBackReady {T : Type} (s : CircularBuffer T) (v : T) : CircularBuffer T :=
  match s.tail with
  | some t =>
    ⟨s.buffer.set t (some v), s.head,
     if (if t + 1 = capC s then 0 else t + 1) = s.head then none
     else some (if t + 1 = capC s then 0 else t + 1),
     s.policy⟩
  | none =>
    ⟨s.buffer.set s.head (some v),
     if s.head + 1 = capC s then 0 else s.head + 1,
     none, s.policy⟩

/-- The zero-capacity and full-buffer handling shared by push_front and
push_back: grow on DynamicCapacity, throw std::logic_error on a fixed
zero-capacity buffer, throw std::out_of_range under ThrowOnFull. -/
def pushGuard {T : Type} [Inhabited T] (s : CircularBuffer T) : Except Err (CircularBuffer T) :=
  match (if capC s = 0 then
           if s.policy.capacityPolicy = .dynamicCapacity then
             .ok (resizeC s 1 .discardOld)
           else .error .logicError
         else .ok s : Except Err (CircularBuffer T)) with
  | .error e => .error e
  | .ok s1 =>
    if s1.tail = none then
      if s1.policy.capacityPolicy = .dynamicCapacity then
        .ok (resizeC s1 (capC s1 * 2) .discardOld)
      else if s1.policy.storePolicy = .throwOnFull then .error .outOfRange
      else .ok s1
    else .ok s1

/-- CircularBuffer::push_back(value). -/
def pushBackC {T : Type} [Inhabited T] (s : CircularBuffer T) (v : T) :
    Except Err (CircularBuffer T) :=
  match pushGuard s with
  | .error e => .error e
  | .ok s2 => .ok (pushBackReady s2 v)

/-- The unconditional write part of CircularBuffer::push_front. -/
def pushFrontReady {T : Type} (s : CircularBuffer T) (v : T) : CircularBuffer T :=
  match s.tail with
  | some t =>
    ⟨s.buffer.set (if s.head = 0 then capC s - 1 else s.head - 1) (some v),
     if s.head = 0 then capC s - 1 else s.head - 1,
     if (if s.head = 0 then capC s - 1 else s.head - 1) = t then none else some t,
     s.policy⟩
  | none =>
    ⟨s.buffer.set (if s.head = 0 then capC s - 1 else s.head - 1) (some v),
     if s.head = 0 then capC s - 1 else s.head - 1,
     none, s.policy⟩

/-- CircularBuffer::push_front(value). -/
def pushFrontC {T : Type} [Inhabited T] (s : CircularBuffer T) (v : T) :
    Except Err (CircularBuffer T) :=
  match pushGuard s with
  | .error e => .error e
  | .ok s2 => .ok (pushFrontReady s2 v)

/-- CircularBuffer::pop_front. -/
def popFrontC {T : Type} [Inhabited T] (s : CircularBuffer T) :
    Except Err (T × CircularBuffer T) :=
  if sizeC s = 0 then .error .outOfRange
  else
    let value := readSlot s s.head
    let s3 : CircularBuffer T :=
      ⟨s.buffer.set s.head none,
       if s.head + 1 = capC s then 0 else s.head + 1,
       some (match s.tail with | none => s.head | some t => t),
       s.policy⟩
    let s4 := if s3.policy.capacityPolicy = .dynamicCapacity ∧ sizeC s3 = capC s3 / 4 then
        resizeC s3 (capC s3 / 2) .discardOld
      else s3
    .ok (value, s4)

/-- CircularBuffer::pop_back. -/
def popBackC {T : Type} [Inhabited T] (s : CircularBuffer T) :
    Except Err (T × CircularBuffer T) :=
  if sizeC s = 0 then .error .outOfRange
  else
    let index := match s.tail with
      | none => if s.head = 0 then capC s - 1 else s.head - 1
      | some t => if t = 0 then capC s - 1 else t - 1
    let value := readSlot s index
    let s2 : CircularBuffer T := ⟨s.buffer.set index none, s.head, some index, s.policy⟩
    let s3 := if s2.policy.capacityPolicy = .dynamicCapacity ∧ sizeC s2 = capC s2 / 4 then
        resizeC s2 (capC s2 / 2) .discardOld
      else s2
    .ok (value, s3)

/-- Well-formedness of the cursor representation: m_head is a valid index
(or the buffer is the default zero-capacity one), and m_tail, when not
npos, is a valid index. -/
def WfC {T : Type} (s : CircularBuffer T) : Prop :=
  (s.head < capC s ∨ (capC s = 0 ∧ s.head = 0 ∧ s.tail = none)) ∧
  (∀ t, s.tail = some t → t < capC s)

theorem mod_sub_char (x C : Nat) (h : x < 2 * C) : x % C = if x < C then x else x - C := by
  split
  · exact Nat.mod_eq_of_lt ‹_›
  · have hx : x = (x - C) + C := by omega
    conv_lhs => rw [hx]
    rw [Nat.add_mod_right]
    have hlt : x - C < C := by omega
    exact Nat.mod_eq_of_lt hlt

theorem mod_add_inj {C head i j : Nat} (hh : head < C) (hi : i < C) (hj : j < C)
    (heq : (head + i) % C = (head + j) % C) : i = j := by
  rw [mod_sub_char _ _ (by omega), mod_sub_char _ _ (by omega)] at heq
  split_ifs at heq <;> omega

theorem sizeC_some {T : Type} (s : CircularBuffer T) (t : Nat) (ht : s.tail = some t)
    (hh : s.head < capC s) (htl : t < capC s) :
    sizeC s = if s.head ≤ t then t - s.head else t + capC s - s.head := by
  simp only [sizeC, ht]
  rw [mod_sub_char _ _ (by omega)]
  split_ifs <;> omega

theorem sizeC_le_capC {T : Type} (s : CircularBuffer T) (wf : WfC s) : sizeC s ≤ capC s := by
  rcases htl : s.tail with _ | t
  · simp [sizeC, htl]
  · have h1 := wf.2 t htl
    rcases wf.1 with hh | ⟨h0, _, _⟩
    · rw [sizeC_some s t htl hh h1]
      split_ifs <;> omega
    · omega

theorem head_add_sizeC_mod {T : Type} (s : CircularBuffer T) (t : Nat) (ht : s.tail = some t)
    (hh : s.head < capC s) (htl : t < capC s) :
    (s.head + sizeC s) % capC s = t := by
  rw [sizeC_some s t ht hh htl]
  split_ifs with hle
  · rw [Nat.mod_eq_of_lt (by omega)]
    omega
  · have : s.head + (t + capC s - s.head) = t + capC s := by omega
    rw [this, Nat.add_mod_right]
    exact Nat.mod_eq_of_lt htl

theorem capC_writeSlot {T : Type} (s : CircularBuffer T) (i : Nat) (v : T) :
    capC (writeSlot s i v) = capC s := by
  simp [capC, writeSlot]

theorem readSlot_writeSlot_same {T : Type} [Inhabited T] (s : CircularBuffer T) (i : Nat) (v : T)
    (h : i < capC s) : readSlot (writeSlot s i v) i = v := by
  simp [readSlot, writeSlot, List.getD_eq_getElem?_getD, List.getElem?_set_self h]

theorem readSlot_writeSlot_ne {T : Type} [Inhabited T] (s : CircularBuffer T) (i j : Nat) (v : T)
    (h : i ≠ j) : readSlot (writeSlot s j v) i = readSlot s i := by
  simp [readSlot, writeSlot, List.getD_eq_getElem?_getD, List.getElem?_set_ne (Ne.symm h)]

theorem logicalList_length {T : Type} [Inhabited T] (s : CircularBuffer T) :
    (logicalList s).length = sizeC s := by
  simp [logicalList]

theorem getD_set_ne {T : Type} (l : List (Option T)) (j i : Nat) (v : Option T) (h : i ≠ j) :
    (l.set j v).getD i none = l.getD i none := by
  simp [List.getD_eq_getElem?_getD, List.getElem?_set_ne (Ne.symm h)]

theorem getD_set_self {T : Type} (l : List (Option T)) (j : Nat) (v : Option T)
    (h : j < l.length) : (l.set j v).getD j none = v := by
  simp [List.getD_eq_getElem?_getD, List.getElem?_set_self h]

/-- Effect of the non-full push_back write: the element lands at the back
of the logical sequence, size grows by one, head is unchanged. -/
theorem pushBackReady_some {T : Type} [Inhabited T] (s : CircularBuffer T) (v : T) (t : Nat)
    (wf : WfC s) (ht : s.tail = some t) :
    WfC (pushBackReady s v) ∧ capC (pushBackReady s v) = capC s ∧
    (pushBackReady s v).head = s.head ∧ (pushBackReady s v).policy = s.policy ∧
    sizeC (pushBackReady s v) = sizeC s + 1 ∧
    logicalList (pushBackReady s v) = logicalList s ++ [v] := by
  have htl : t < capC s := wf.2 t ht
  have hh : s.head < capC s := by
    rcases wf.1 with h | ⟨h0, _, _⟩
    · exact h
    · omega
  have hC : 0 < capC s := by omega
  have hchar := sizeC_some s t ht hh htl
  have hts : (s.head + sizeC s) % capC s = t := head_add_sizeC_mod s t ht hh htl
  have hszlt : sizeC s < capC s := by
    simp only [sizeC, ht]
    exact Nat.mod_lt _ hC
  have hred : pushBackReady s v =
      ⟨s.buffer.set t (some v), s.head,
       if (if t + 1 = capC s then 0 else t + 1) = s.head then none
       else some (if t + 1 = capC s then 0 else t + 1), s.policy⟩ := by
    simp only [pushBackReady, ht]
  have hcap : capC (pushBackReady s v) = capC s := by
    rw [hred]
    simp [capC]
  have hhead : (pushBackReady s v).head = s.head := by
    rw [hred]
  have hpol : (pushBackReady s v).policy = s.policy := by
    rw [hred]
  have hbuf : (pushBackReady s v).buffer = s.buffer.set t (some v) := by
    rw [hred]
  have htail : (pushBackReady s v).tail =
      (if (if t + 1 = capC s then 0 else t + 1) = s.head then none
       else some (if t + 1 = capC s then 0 else t + 1)) := by
    rw [hred]
  set u := if t + 1 = capC s then 0 else t + 1 with hu
  have hudef : (t + 1 = capC s ∧ u = 0) ∨ (t + 1 ≠ capC s ∧ u = t + 1) := by
    rw [hu]
    split_ifs with h
    · exact Or.inl ⟨h, rfl⟩
    · exact Or.inr ⟨h, rfl⟩
  have hult : u < capC s := by
    rcases hudef with ⟨h1, h2⟩ | ⟨h1, h2⟩ <;> omega
  have hsz : sizeC (pushBackReady s v) = sizeC s + 1 := by
    by_cases hcol : u = s.head
    · have hfull : sizeC (pushBackReady s v) = capC s := by
        simp only [sizeC, htail, if_pos hcol, hcap]
      rw [hfull]
      split_ifs at hchar <;> rcases hudef with ⟨h1, h2⟩ | ⟨h1, h2⟩ <;> omega
    · have hval : sizeC (pushBackReady s v) = (u + capC s - s.head) % capC s := by
        simp only [sizeC, htail, if_neg hcol, hcap, hhead]
      rw [hval, mod_sub_char _ _ (by omega)]
      split_ifs at hchar ⊢ <;> rcases hudef with ⟨h1, h2⟩ | ⟨h1, h2⟩ <;> omega
  refine ⟨?_, hcap, hhead, hpol, hsz, ?_⟩
  · constructor
    · left
      rw [hhead, hcap]
      exact hh
    · intro t' ht'
      rw [htail] at ht'
      rw [hcap]
      by_cases hcol : u = s.head
      · rw [if_pos hcol] at ht'
        exact absurd ht' (by simp)
      · rw [if_neg hcol] at ht'
        simp only [Option.some.injEq] at ht'
        omega
  · simp only [logicalList, hsz, hcap, hhead]
    rw [List.range_succ, List.map_append]
    congr 1
    · apply List.map_congr_left
      intro i hi
      simp only [List.mem_range] at hi
      have hne : (s.head + i) % capC s ≠ t := by
        intro habs
        have heqmod : (s.head + i) % capC s = (s.head + sizeC s) % capC s := by
          rw [hts, habs]
        have := mod_add_inj hh (by omega) hszlt heqmod
        omega
      simp only [readSlot, hbuf]
      rw [getD_set_ne _ _ _ _ hne]
    · simp only [List.map_cons, List.map_nil, readSlot, hbuf]
      rw [hts, getD_set_self _ _ _ (by simpa [capC] using htl)]
      simp

/-- Effect of the full-buffer push_back write under ReplaceOnFull: the slot
at m_head (the oldest element) is overwritten, m_head advances, the buffer
stays full: the logical sequence drops its front and appends v. -/
theorem pushBackReady_none {T : Type} [Inhabited T] (s : CircularBuffer T) (v : T)
    (wf : WfC s) (ht : s.tail = none) (hC : 0 < capC s) :
    WfC (pushBackReady s v) ∧ capC (pushBackReady s v) = capC s ∧
    (pushBackReady s v).policy = s.policy ∧ (pushBackReady s v).tail = none ∧
    sizeC (pushBackReady s v) = capC s ∧
    logicalList (pushBackReady s v) = (logicalList s).drop 1 ++ [v] := by
  have hh : s.head < capC s := by
    rcases wf.1 with h | ⟨h0, _, _⟩
    · exact h
    · omega
  have hred : pushBackReady s v =
      ⟨s.buffer.set s.head (some v),
       if s.head + 1 = capC s then 0 else s.head + 1, none, s.policy⟩ := by
    simp only [pushBackReady, ht]
  have hcap : capC (pushBackReady s v) = capC s := by
    rw [hred]
    simp [capC]
  have hbuf : (pushBackReady s v).buffer = s.buffer.set s.head (some v) := by
    rw [hred]
  have htail : (pushBackReady s v).tail = none := by
    rw [hred]
  have hhead : (pushBackReady s v).head = if s.head + 1 = capC s then 0 else s.head + 1 := by
    rw [hred]
  have hh' : (pushBackReady s v).head < capC s := by
    rw [hhead]
    split_ifs <;> omega
  have hsz : sizeC (pushBackReady s v) = capC s := by
    simp only [sizeC, htail, hcap]
  have hszs : sizeC s = capC s := by
    simp only [sizeC, ht]
  have hhead' : (pushBackReady s v).head = (s.head + 1) % capC s := by
    rw [hhead, mod_sub_char _ _ (by omega)]
    split_ifs <;> omega
  refine ⟨⟨Or.inl (by rw [hcap]; exact hh'), fun t' ht' => by rw [htail] at ht'; cases ht'⟩,
    hcap, by rw [hred], htail, hsz, ?_⟩
  have hCsplit : capC s = (capC s - 1) + 1 := by omega
  have hLs : logicalList s =
      readSlot s ((s.head + 0) % capC s) ::
        (List.range (capC s - 1)).map
          (fun i => readSlot s ((s.head + Nat.succ i) % capC s)) := by
    rw [logicalList, hszs, hCsplit, List.range_succ_eq_map]
    simp [List.map_map, Function.comp]
  have hgoalR : (logicalList s).drop 1 ++ [v] =
      (List.range (capC s - 1)).map
        (fun i => readSlot s ((s.head + Nat.succ i) % capC s)) ++ [v] := by
    rw [hLs]
    simp
  rw [hgoalR]
  have hgoalL : logicalList (pushBackReady s v) =
      (List.range (capC s - 1)).map
        (fun i => readSlot (pushBackReady s v) (((pushBackReady s v).head + i) % capC s)) ++
      [readSlot (pushBackReady s v) (((pushBackReady s v).head + (capC s - 1)) % capC s)] := by
    rw [logicalList, hsz, hcap, hCsplit, List.range_succ]
    simp
  rw [hgoalL]
  congr 1
  · apply List.map_congr_left
    intro i hi
    simp only [List.mem_range] at hi
    have hidx : ((pushBackReady s v).head + i) % capC s = (s.head + Nat.succ i) % capC s := by
      rw [hhead', Nat.mod_add_mod]
      congr 1
      omega
    rw [hidx]
    have hne : (s.head + Nat.succ i) % capC s ≠ s.head := by
      intro habs
      have h0 : (s.head + 0) % capC s = s.head := by
        simpa using Nat.mod_eq_of_lt hh
      have := mod_add_inj hh (by omega) (by omega) (habs.trans h0.symm)
      omega
    simp only [readSlot, hbuf]
    rw [getD_set_ne _ _ _ _ hne]
  · have hidx : ((pushBackReady s v).head + (capC s - 1)) % capC s = s.head := by
      rw [hhead', Nat.mod_add_mod]
      have : s.head + 1 + (capC s - 1) = s.head + capC s := by omega
      rw [this, Nat.add_mod_right]
      exact Nat.mod_eq_of_lt hh
    rw [hidx]
    simp only [readSlot, hbuf]
    rw [getD_set_self _ _ _ (by simpa [capC] using hh)]
    rfl

/-- The push guard passes a non-full buffer through untouched. -/
theorem pushGuard_some {T : Type} [Inhabited T] (s : CircularBuffer T) (t : Nat)
    (ht : s.tail = some t) (hC : 0 < capC s) : pushGuard s = .ok s := by
  simp only [pushGuard]
  rw [if_neg (by omega)]
  simp [ht]

/-- The push guard passes a full fixed ReplaceOnFull buffer through. -/
theorem pushGuard_full_replace {T : Type} [Inhabited T] (s : CircularBuffer T)
    (ht : s.tail = none) (hC : 0 < capC s)
    (hpol : s.policy = defaultBufferPolicy) : pushGuard s = .ok s := by
  simp only [pushGuard]
  rw [if_neg (by omega)]
  simp [ht, hpol, defaultBufferPolicy]

/-- The push guard doubles the capacity of a full DynamicCapacity buffer. -/
theorem pushGuard_full_dynamic {T : Type} [Inhabited T] (s : CircularBuffer T)
    (ht : s.tail = none) (hC : 0 < capC s)
    (hpol : s.policy.capacityPolicy = .dynamicCapacity) :
    pushGuard s = .ok (resizeC s (capC s * 2) .discardOld) := by
  simp only [pushGuard]
  rw [if_neg (by omega)]
  simp [ht, hpol]

/-- Folding push_back over a list of values (ignoring errors, which do not
occur in the configurations considered below). -/
def pushAllC {T : Type} [Inhabited T] (s : CircularBuffer T) (vs : List T) : CircularBuffer T :=
  vs.foldl (fun acc v => match pushBackC acc v with | .ok s' => s' | .error _ => acc) s

theorem pushAllC_cons {T : Type} [Inhabited T] (s : CircularBuffer T) (v : T) (vs : List T) :
    pushAllC s (v :: vs) =
      pushAllC (match pushBackC s v with | .ok s' => s' | .error _ => s) vs := rfl

/-- Main induction for the ReplaceOnFull wraparound property: after pushing
vs onto a fixed ReplaceOnFull buffer, the logical contents are the last
capacity-many elements of (old contents ++ vs). -/
theorem pushAll_replace_inv {T : Type} [Inhabited T] (vs : List T) :
    ∀ s : CircularBuffer T, WfC s → s.policy = defaultBufferPolicy → 0 < capC s →
      WfC (pushAllC s vs) ∧ capC (pushAllC s vs) = capC s ∧
      (pushAllC s vs).policy = s.policy ∧
      logicalList (pushAllC s vs) =
        (logicalList s ++ vs).drop ((logicalList s).length + vs.length - capC s) := by
  induction vs with
  | nil =>
    intro s wf hpol hC
    have hle : sizeC s ≤ capC s := sizeC_le_capC s wf
    have h0 : (logicalList s).length - capC s = 0 := by
      rw [logicalList_length]
      omega
    refine ⟨wf, rfl, rfl, ?_⟩
    simp [pushAllC, h0]
  | cons v vs ih =>
    intro s wf hpol hC
    rcases ht : s.tail with _ | t
    · -- full buffer: ReplaceOnFull eviction
      have hguard := pushGuard_full_replace s ht hC hpol
      have hstep : (match pushBackC s v with | .ok s' => s' | .error _ => s) =
          pushBackReady s v := by
        simp [pushBackC, hguard]
      have hready := pushBackReady_none s v wf ht hC
      have hIH := ih (pushBackReady s v) hready.1
        (hready.2.2.1.trans hpol) (by rw [hready.2.1]; exact hC)
      rw [pushAllC_cons, hstep]
      refine ⟨hIH.1, hIH.2.1.trans hready.2.1, hIH.2.2.1.trans hready.2.2.1, ?_⟩
      rw [hIH.2.2.2, hready.2.2.2.2.2, hready.2.1]
      have hlenl : (logicalList s).length = capC s := by
        rw [logicalList_length]
        simp [sizeC, ht]
      have hsplit : (logicalList s).drop 1 ++ [v] ++ vs =
          (logicalList s ++ v :: vs).drop 1 := by
        rw [List.drop_append_of_le_length (by omega)]
        simp
      rw [hsplit, List.drop_drop]
      congr 1
      have h1 : ((logicalList s).drop 1 ++ [v]).length = capC s := by
        simp [hlenl]
        omega
      rw [h1]
      simp [hlenl]
      omega
    · -- non-full buffer: plain append
      have hguard := pushGuard_some s t ht (by
        have := wf.2 t ht
        omega)
      have hstep : (match pushBackC s v with | .ok s' => s' | .error _ => s) =
          pushBackReady s v := by
        simp [pushBackC, hguard]
      have hready := pushBackReady_some s v t wf ht
      have hIH := ih (pushBackReady s v) hready.1
        (hready.2.2.2.1.trans hpol) (by rw [hready.2.1]; exact hC)
      rw [pushAllC_cons, hstep]
      refine ⟨hIH.1, hIH.2.1.trans hready.2.1, hIH.2.2.1.trans hready.2.2.2.1, ?_⟩
      rw [hIH.2.2.2, hready.2.2.2.2.2, hready.2.1]
      have heq : logicalList s ++ [v] ++ vs = logicalList s ++ v :: vs := by
        simp
      rw [heq]
      congr 1
      simp [logicalList_length, hready.2.2.2.2.1]
      omega

theorem capC_mkC (T : Type) (C : Nat) (pol : BufferPolicy) : capC (mkC T C pol) = C := by
  simp [capC, mkC]

theorem wfC_mkC (T : Type) (C : Nat) (pol : BufferPolicy) : WfC (mkC T C pol) := by
  constructor
  · rcases Nat.eq_zero_or_pos C with h0 | hpos
    · right
      simp [mkC, capC, h0]
    · left
      simp [mkC, capC]
      omega
  · intro t ht
    simp only [mkC] at ht
    rcases Nat.eq_zero_or_pos C with hC0 | hCpos
    · rw [if_pos hC0] at ht
      cases ht
    · rw [if_neg (by omega)] at ht
      have ht2 : 0 = t := Option.some.inj ht
      subst ht2
      simp only [capC, mkC, List.length_replicate]
      omega

theorem sizeC_mkC (T : Type) (C : Nat) (pol : BufferPolicy) : sizeC (mkC T C pol) = 0 := by
  rcases Nat.eq_zero_or_pos C with h0 | hpos
  · simp [sizeC, mkC, capC, h0]
  · simp only [sizeC, mkC, capC]
    rw [if_neg (by omega)]
    simp

theorem logicalList_mkC (T : Type) [Inhabited T] (C : Nat) (pol : BufferPolicy) :
    logicalList (mkC T C pol) = [] := by
  simp [logicalList, sizeC_mkC]

/-- C6: For every fixed-capacity CircularBuffer of capacity C under
ReplaceOnFull, starting empty, pushing C + k values (k > 0) leaves a full
buffer whose logical contents are the last C pushed values in order. -/
theorem circular_replace_wraparound (T : Type) [Inhabited T] (C k : Nat) (vs : List T)
    (hlen : vs.length = C + k) (hk : 0 < k) (hC : 0 < C) :
    logicalList (pushAllC (mkC T C defaultBufferPolicy) vs) = vs.drop k ∧
    sizeC (pushAllC (mkC T C defaultBufferPolicy) vs) = C := by
  have h := pushAll_replace_inv vs (mkC T C defaultBufferPolicy)
    (wfC_mkC T C defaultBufferPolicy) rfl (by rw [capC_mkC]; exact hC)
  have hlist := h.2.2.2
  rw [logicalList_mkC, capC_mkC] at hlist
  simp only [List.nil_append, List.length_nil, Nat.zero_add, hlen] at hlist
  have hdrop : C + k - C = k := by omega
  rw [hdrop] at hlist
  refine ⟨hlist, ?_⟩
  have := logicalList_length (pushAllC (mkC T C defaultBufferPolicy) vs)
  rw [hlist] at this
  rw [← this, List.length_drop, hlen]
  omega

/-- Witness for C6: capacity 5, ReplaceOnFull, push_back 1..6 yields
logical contents 2,3,4,5,6 and size 5. -/
theorem circular_replace_wraparound_witness :
    logicalList (pushAllC (mkC Nat 5 defaultBufferPolicy) [1, 2, 3, 4, 5, 6]) = [2, 3, 4, 5, 6] ∧
    sizeC (pushAllC (mkC Nat 5 defaultBufferPolicy) [1, 2, 3, 4, 5, 6]) = 5 := by
  have h := circular_replace_wraparound Nat 5 1 [1, 2, 3, 4, 5, 6] rfl (by decide) (by decide)
  exact ⟨h.1.trans (by decide), h.2⟩

theorem getD_map_range {α : Type} (g : Nat → α) (m i : Nat) (h : i < m) (d : α) :
    ((List.range m).map g).getD i d = g i := by
  simp [List.getD_eq_getElem?_getD, List.getElem?_map, List.getElem?_range h]

/-- Growing resize: all elements are moved in logical order to the front of
the fresh arena, head becomes 0 and tail the old size. -/
theorem resizeC_grow {T : Type} [Inhabited T] (s : CircularBuffer T) (newCap : Nat)
    (rpol : BufferResizePolicy) (wf : WfC s) (hlt : capC s < newCap) :
    WfC (resizeC s newCap rpol) ∧ (resizeC s newCap rpol).head = 0 ∧
    (resizeC s newCap rpol).tail = some (sizeC s) ∧
    capC (resizeC s newCap rpol) = newCap ∧
    (resizeC s newCap rpol).policy = s.policy ∧
    logicalList (resizeC s newCap rpol) = logicalList s := by
  have hle : sizeC s ≤ capC s := sizeC_le_capC s wf
  have hne0 : ¬newCap = 0 := by omega
  have hneC : ¬newCap = capC s := by omega
  by_cases hsz0 : sizeC s = 0
  · have hred : resizeC s newCap rpol =
        ⟨List.replicate newCap none, 0, some 0, s.policy⟩ := by
      simp only [resizeC, if_neg hne0, if_neg hneC, if_pos hsz0]
    have hcap : capC (resizeC s newCap rpol) = newCap := by
      rw [hred]
      simp [capC]
    have hsz' : sizeC (resizeC s newCap rpol) = 0 := by
      rw [hred]
      simp only [sizeC, capC, List.length_replicate]
      simp
    refine ⟨⟨Or.inl (by rw [hred]; simp [capC]; omega), ?_⟩, by rw [hred], ?_, hcap,
      by rw [hred], ?_⟩
    · intro t' ht'
      rw [hred] at ht'
      simp only [Option.some.injEq] at ht'
      rw [hcap]
      omega
    · rw [hred, hsz0]
    · simp only [logicalList, hsz', hsz0]
      simp
  · have hred : resizeC s newCap rpol =
        ⟨(List.range newCap).map
           (fun i => if i < sizeC s then some (readSlot s ((s.head + i) % capC s)) else none),
         0, some (sizeC s), s.policy⟩ := by
      simp only [resizeC, if_neg hne0, if_neg hneC, if_neg hsz0, if_pos hlt]
      have hteq : (match s.tail with
          | none => capC s
          | some t0 => (t0 + capC s - s.head) % capC s) = sizeC s := by
        simp only [sizeC]
      rw [hteq]
    have hcap : capC (resizeC s newCap rpol) = newCap := by
      rw [hred]
      simp [capC]
    have hszlt : sizeC s < newCap := by omega
    have hsz' : sizeC (resizeC s newCap rpol) = sizeC s := by
      rw [hred]
      simp only [sizeC, capC, List.length_map, List.length_range, Nat.sub_zero]
      rw [Nat.add_mod_right]
      exact Nat.mod_eq_of_lt hszlt
    refine ⟨⟨Or.inl (by rw [hred]; simp [capC]; omega), ?_⟩, by rw [hred], by rw [hred], hcap,
      by rw [hred], ?_⟩
    · intro t' ht'
      rw [hred] at ht'
      simp only [Option.some.injEq] at ht'
      rw [hcap]
      omega
    · simp only [logicalList, hsz', hcap]
      apply List.map_congr_left
      intro i hi
      simp only [List.mem_range] at hi
      have hidx : ((resizeC s newCap rpol).head + i) % newCap = i := by
        rw [hred]
        simp only
        rw [Nat.zero_add]
        exact Nat.mod_eq_of_lt (by omega)
      rw [hidx]
      have hread : readSlot (resizeC s newCap rpol) i =
          readSlot s ((s.head + i) % capC s) := by
        simp only [readSlot, hred]
        rw [getD_map_range _ _ _ (by omega)]
        rw [if_pos hi]
        rfl
      rw [hread]

/-- push_back on a full DynamicCapacity buffer: the capacity is doubled
(resize into a fresh arena with head reset to 0) and the insert proceeds. -/
theorem pushBackC_dynamic_full {T : Type} [Inhabited T] (s : CircularBuffer T) (v : T)
    (wf : WfC s) (ht : s.tail = none) (hC : 0 < capC s)
    (hpol : s.policy.capacityPolicy = .dynamicCapacity) :
    ∃ s', pushBackC s v = .ok s' ∧ capC s' = 2 * capC s ∧ s'.head = 0 ∧
      logicalList s' = logicalList s ++ [v] := by
  have hguard := pushGuard_full_dynamic s ht hC hpol
  have hszfull : sizeC s = capC s := by
    simp [sizeC, ht]
  have hr := resizeC_grow s (capC s * 2) .discardOld wf (by omega)
  set r := resizeC s (capC s * 2) .discardOld with hrdef
  have htr : r.tail = some (capC s) := by
    rw [hr.2.2.1, hszfull]
  have hready := pushBackReady_some r v (capC s) hr.1 htr
  refine ⟨pushBackReady r v, ?_, ?_, ?_, ?_⟩
  · simp [pushBackC, hguard]
  · rw [hready.2.1, hr.2.2.2.1]
    omega
  · rw [hready.2.2.1, hr.2.1]
  · rw [hready.2.2.2.2.2, hr.2.2.2.2.2]

/-- C3: For every RingBuffer holding logical sequence e0..e(S-1), a growing
resize (to newCapacity > capacity), including the automatic doubling
performed by push_back on a full DynamicCapacity buffer, moves the elements
into the fresh storage preserving logical order, resets head to 0 and sets
tail to the old size S. -/
theorem circular_resize_grow_spec (T : Type) [Inhabited T] (s : CircularBuffer T)
    (newCap : Nat) (rpol : BufferResizePolicy) (v : T) (wf : WfC s) :
    (capC s < newCap →
      (resizeC s newCap rpol).head = 0 ∧
      (resizeC s newCap rpol).tail = some (sizeC s) ∧
      capC (resizeC s newCap rpol) = newCap ∧
      logicalList (resizeC s newCap rpol) = logicalList s) ∧
    (s.tail = none → 0 < capC s → s.policy.capacityPolicy = .dynamicCapacity →
      ∃ s', pushBackC s v = .ok s' ∧ capC s' = 2 * capC s ∧ s'.head = 0 ∧
        logicalList s' = logicalList s ++ [v]) := by
  constructor
  · intro hlt
    have h := resizeC_grow s newCap rpol wf hlt
    exact ⟨h.2.1, h.2.2.1, h.2.2.2.1, h.2.2.2.2.2⟩
  · intro ht hC hpol
    exact pushBackC_dynamic_full s v wf ht hC hpol

/-- Witness for C3: a buffer of capacity 3 holding 10, 20 with head 1
(wrapped layout), resized to capacity 5; and a full dynamic buffer of
capacity 2 pushed into. -/
theorem circular_resize_grow_spec_witness :
    (resizeC (⟨[some 99, some 10, some 20], 1, some 0, defaultBufferPolicy⟩ : CircularBuffer Nat)
        5 .discardOld).head = 0 ∧
    (resizeC (⟨[some 99, some 10, some 20], 1, some 0, defaultBufferPolicy⟩ : CircularBuffer Nat)
        5 .discardOld).tail = some 2 ∧
    capC (resizeC (⟨[some 99, some 10, some 20], 1, some 0, defaultBufferPolicy⟩ :
        CircularBuffer Nat) 5 .discardOld) = 5 ∧
    logicalList (resizeC (⟨[some 99, some 10, some 20], 1, some 0, defaultBufferPolicy⟩ :
        CircularBuffer Nat) 5 .discardOld) = [10, 20] ∧
    (∃ s', pushBackC (⟨[some 1, some 2], 0, none,
          ⟨.dynamicCapacity, .replaceOnFull⟩⟩ : CircularBuffer Nat) 7 = .ok s' ∧
      capC s' = 4 ∧ s'.head = 0 ∧ logicalList s' = [1, 2] ++ [7]) := by
  have wf1 : WfC (⟨[some 99, some 10, some 20], 1, some 0, defaultBufferPolicy⟩ :
      CircularBuffer Nat) := by
    constructor
    · left
      simp [capC]
    · intro t ht
      simp only [Option.some.injEq] at ht
      simp [capC]
      omega
  have wf2 : WfC (⟨[some 1, some 2], 0, none,
      ⟨.dynamicCapacity, .replaceOnFull⟩⟩ : CircularBuffer Nat) := by
    constructor
    · left
      simp [capC]
    · intro t ht
      cases ht
  have h1 := (circular_resize_grow_spec Nat
    (⟨[some 99, some 10, some 20], 1, some 0, defaultBufferPolicy⟩ : CircularBuffer Nat)
    5 .discardOld 0 wf1).1 (by decide)
  have h2 := (circular_resize_grow_spec Nat
    (⟨[some 1, some 2], 0, none, ⟨.dynamicCapacity, .replaceOnFull⟩⟩ : CircularBuffer Nat)
    4 .discardOld 7 wf2).2 rfl (by decide) rfl
  refine ⟨h1.1, ?_, h1.2.2.1, h1.2.2.2.trans (by decide), ?_⟩
  · have hsz : sizeC (⟨[some 99, some 10, some 20], 1, some 0, defaultBufferPolicy⟩ :
        CircularBuffer Nat) = 2 := by decide
    rw [h1.2.1, hsz]
  · obtain ⟨s', hs1, hs2, hs3, hs4⟩ := h2
    refine ⟨s', hs1, by rw [hs2]; decide, hs3, hs4.trans (by decide)⟩

theorem d_round (C start i : Nat) (hst : start < C) (hi : i < C) :
    ((start + i) % C + C - start) % C = i := by
  rw [mod_sub_char (start + i) C (by omega)]
  split_ifs with h
  · have : start + i + C - start = i + C := by omega
    rw [this, Nat.add_mod_right]
    exact Nat.mod_eq_of_lt hi
  · have : start + i - C + C - start = i := by omega
    rw [this]
    exact Nat.mod_eq_of_lt hi

/-- Lay the element list l out in physical slots start, start+1, ...
(mod C), keeping the previous contents of the remaining slots. -/
def layoutFrom {T : Type} (C start : Nat) (l : List T) (orig : List (Option T)) :
    List (Option T) :=
  (List.range C).map (fun j =>
    let d := (j + C - start) % C
    if h : d < l.length then some (l.get ⟨d, h⟩) else orig.getD j none)

theorem length_layoutFrom {T : Type} (C start : Nat) (l : List T) (orig : List (Option T)) :
    (layoutFrom C start l orig).length = C := by
  simp [layoutFrom]

/-- Reading back the logical sequence of a laid-out buffer. -/
theorem logicalList_layout {T : Type} [Inhabited T] (C start : Nat) (l : List T)
    (orig : List (Option T)) (tl : Option Nat) (pol : BufferPolicy)
    (hst : start < C) (hl : l.length ≤ C)
    (hsz : sizeC (⟨layoutFrom C start l orig, start, tl, pol⟩ : CircularBuffer T) = l.length) :
    logicalList (⟨layoutFrom C start l orig, start, tl, pol⟩ : CircularBuffer T) = l := by
  have hcap : capC (⟨layoutFrom C start l orig, start, tl, pol⟩ : CircularBuffer T) = C := by
    simp [capC, length_layoutFrom]
  apply List.ext_getElem
  · rw [logicalList_length, hsz]
  · intro i hi1 hi2
    rw [logicalList_length, hsz] at hi1
    simp only [logicalList, hsz, hcap, List.getElem_map, List.getElem_range]
    have hiC : i < C := by omega
    have hread : readSlot (⟨layoutFrom C start l orig, start, tl, pol⟩ : CircularBuffer T)
        ((start + i) % C) = l.get ⟨i, hi2⟩ := by
      simp only [readSlot, layoutFrom]
      rw [getD_map_range _ _ _ (Nat.mod_lt _ (by omega))]
      simp only [d_round C start i hst hiC]
      rw [dif_pos hi2]
      rfl
    rw [hread]
    simp

theorem logicalList_getD {T : Type} [Inhabited T] (s : CircularBuffer T) (pos : Nat)
    (h : pos < sizeC s) :
    (logicalList s).getD pos default = readSlot s ((s.head + pos) % capC s) := by
  simp [logicalList, List.getD_eq_getElem?_getD, List.getElem?_map, List.getElem?_range h]

/-- Modelled from the spec: CircularBuffer::insert(pos, value).  The source
under src/ declares no insert member (the repository's tests and
BlockyLinkedList call one), so the definition is taken from the spec:
pos must be in [0, S] or the call fails with an out-of-range error;
otherwise the shorter of the two sides (pos front elements versus S - pos
back elements) is shifted by one slot to open a gap (the front side moves
the head cursor back one slot, the back side moves the tail cursor forward
one slot; slots outside the logical window keep their previous contents,
and layoutFrom records the net slot contents after the shift).  On a full
buffer the spec's words do not apply; following the repository's tests the
slot holding the oldest element is reused. -/
def insertC {T : Type} [Inhabited T] (s : CircularBuffer T) (pos : Nat) (v : T) :
    Except Err (CircularBuffer T) :=
  if pos > sizeC s then .error .outOfRange
  else if sizeC s < capC s then
    if pos ≤ sizeC s - pos then
      .ok ⟨layoutFrom (capC s) (if s.head = 0 then capC s - 1 else s.head - 1)
             ((logicalList s).insertIdx pos v) s.buffer,
           if s.head = 0 then capC s - 1 else s.head - 1,
           if sizeC s + 1 = capC s then none else s.tail, s.policy⟩
    else
      .ok ⟨layoutFrom (capC s) s.head ((logicalList s).insertIdx pos v) s.buffer,
           s.head,
           if sizeC s + 1 = capC s then none
           else some (if (match s.tail with | some t => t | none => s.head) + 1 = capC s then 0
                      else (match s.tail with | some t => t | none => s.head) + 1),
           s.policy⟩
  else
    .ok ⟨layoutFrom (capC s) 0 (((logicalList s).drop 1).insertIdx pos v) s.buffer, 0,
         if (((logicalList s).drop 1).insertIdx pos v).length = capC s then none
         else some (((logicalList s).drop 1).insertIdx pos v).length, s.policy⟩

/-- Modelled from the spec: CircularBuffer::remove(pos), absent from src/
like insert.  pos must be in [0, S) or the call fails with an out-of-range
error; otherwise the shorter side is shifted by one slot to close the gap
(front side: head advances; back side: tail retreats) and the removed value
is returned. -/
def removeC {T : Type} [Inhabited T] (s : CircularBuffer T) (pos : Nat) :
    Except Err (T × CircularBuffer T) :=
  if pos ≥ sizeC s then .error .outOfRange
  else if pos ≤ sizeC s - pos then
    .ok (readSlot s ((s.head + pos) % capC s),
      ⟨layoutFrom (capC s) (if s.head + 1 = capC s then 0 else s.head + 1)
         ((logicalList s).eraseIdx pos) s.buffer,
       if s.head + 1 = capC s then 0 else s.head + 1,
       some (match s.tail with | some t => t | none => s.head), s.policy⟩)
  else
    .ok (readSlot s ((s.head + pos) % capC s),
      ⟨layoutFrom (capC s) s.head ((logicalList s).eraseIdx pos) s.buffer,
       s.head,
       some (if (match s.tail with | some t => t | none => s.head) = 0 then capC s - 1
             else (match s.tail with | some t => t | none => s.head) - 1), s.policy⟩)

theorem sizeC_mk_some {T : Type} (buf : List (Option T)) (hd t : Nat) (pol : BufferPolicy) :
    sizeC (⟨buf, hd, some t, pol⟩ : CircularBuffer T) = (t + buf.length - hd) % buf.length := rfl

theorem sizeC_mk_none {T : Type} (buf : List (Option T)) (hd : Nat) (pol : BufferPolicy) :
    sizeC (⟨buf, hd, none, pol⟩ : CircularBuffer T) = buf.length := rfl

/-- C4: the RingBuffer positional operations: insert(pos, v) fails with an
out-of-range error iff pos > S and otherwise opens a gap at pos by a
one-slot shift of the shorter side; remove(pos) fails iff pos >= S and
otherwise closes the gap, returning the removed element. -/
theorem circular_insert_remove_spec (T : Type) [Inhabited T] (s : CircularBuffer T)
    (pos : Nat) (v : T) (wf : WfC s) :
    (insertC s pos v = .error .outOfRange ↔ pos > sizeC s) ∧
    (pos ≤ sizeC s → ∃ s', insertC s pos v = .ok s') ∧
    (pos ≤ sizeC s → sizeC s < capC s →
      ∃ s', insertC s pos v = .ok s' ∧
        logicalList s' = (logicalList s).insertIdx pos v ∧ sizeC s' = sizeC s + 1) ∧
    (removeC s pos = .error .outOfRange ↔ pos ≥ sizeC s) ∧
    (pos < sizeC s →
      ∃ s', removeC s pos = .ok ((logicalList s).getD pos default, s') ∧
        logicalList s' = (logicalList s).eraseIdx pos ∧ sizeC s' = sizeC s - 1) := by
  have hok : pos ≤ sizeC s → ∃ s', insertC s pos v = .ok s' := by
    intro h
    simp only [insertC]
    rw [if_neg (by omega)]
    by_cases hfull : sizeC s < capC s
    · rw [if_pos hfull]
      by_cases hside : pos ≤ sizeC s - pos
      · rw [if_pos hside]
        exact ⟨_, rfl⟩
      · rw [if_neg hside]
        exact ⟨_, rfl⟩
    · rw [if_neg hfull]
      exact ⟨_, rfl⟩
  have hinsContents : pos ≤ sizeC s → sizeC s < capC s →
      ∃ s', insertC s pos v = .ok s' ∧
        logicalList s' = (logicalList s).insertIdx pos v ∧ sizeC s' = sizeC s + 1 := by
    intro hle hfull
    have hC : 0 < capC s := by omega
    have hh : s.head < capC s := by
      rcases wf.1 with h | ⟨h0, _, _⟩
      · exact h
      · omega
    rcases ht : s.tail with _ | t
    · exfalso
      have : sizeC s = capC s := by simp [sizeC, ht]
      omega
    have htl : t < capC s := wf.2 t ht
    have hchar := sizeC_some s t ht hh htl
    have hlen' : ((logicalList s).insertIdx pos v).length = sizeC s + 1 := by
      rw [List.length_insertIdx pos _ (by rw [logicalList_length]; omega), logicalList_length]
    by_cases hside : pos ≤ sizeC s - pos
    · have hred : insertC s pos v =
          .ok ⟨layoutFrom (capC s) (if s.head = 0 then capC s - 1 else s.head - 1)
                 ((logicalList s).insertIdx pos v) s.buffer,
               if s.head = 0 then capC s - 1 else s.head - 1,
               if sizeC s + 1 = capC s then none else s.tail, s.policy⟩ := by
        simp only [insertC]
        rw [if_neg (by omega), if_pos hfull, if_pos hside]
      refine ⟨_, hred, ?_, ?_⟩
      · apply logicalList_layout
        · split_ifs <;> omega
        · omega
        · -- size of the new state equals the inserted list length
          by_cases hfc : sizeC s + 1 = capC s
          · rw [if_pos hfc, sizeC_mk_none, length_layoutFrom, hlen', hfc]
          · rw [if_neg hfc, ht, sizeC_mk_some, length_layoutFrom, hlen']
            by_cases hh0 : s.head = 0
            · rw [if_pos hh0]
              rw [mod_sub_char _ _ (by omega)]
              split_ifs at hchar ⊢ <;> omega
            · rw [if_neg hh0]
              rw [mod_sub_char _ _ (by omega)]
              split_ifs at hchar ⊢ <;> omega
      · -- same size computation
        by_cases hfc : sizeC s + 1 = capC s
        · rw [if_pos hfc, sizeC_mk_none, length_layoutFrom, hfc]
        · rw [if_neg hfc, ht, sizeC_mk_some, length_layoutFrom]
          by_cases hh0 : s.head = 0
          · rw [if_pos hh0]
            rw [mod_sub_char _ _ (by omega)]
            split_ifs at hchar ⊢ <;> omega
          · rw [if_neg hh0]
            rw [mod_sub_char _ _ (by omega)]
            split_ifs at hchar ⊢ <;> omega
    · have hred : insertC s pos v =
          .ok ⟨layoutFrom (capC s) s.head ((logicalList s).insertIdx pos v) s.buffer,
               s.head,
               if sizeC s + 1 = capC s then none
               else some (if (match s.tail with | some t => t | none => s.head) + 1 = capC s
                          then 0
                          else (match s.tail with | some t => t | none => s.head) + 1),
               s.policy⟩ := by
        simp only [insertC]
        rw [if_neg (by omega), if_pos hfull, if_neg hside]
      simp only [ht] at hred
      have hszX : sizeC (⟨layoutFrom (capC s) s.head ((logicalList s).insertIdx pos v) s.buffer,
          s.head,
          if sizeC s + 1 = capC s then none
          else some (if t + 1 = capC s then 0 else t + 1), s.policy⟩ : CircularBuffer T) =
          sizeC s + 1 := by
        by_cases hfc : sizeC s + 1 = capC s
        · rw [if_pos hfc, sizeC_mk_none, length_layoutFrom, hfc]
        · rw [if_neg hfc, sizeC_mk_some, length_layoutFrom]
          by_cases ht1 : t + 1 = capC s
          · rw [if_pos ht1]
            rw [mod_sub_char _ _ (by omega)]
            split_ifs at hchar ⊢ <;> omega
          · rw [if_neg ht1]
            rw [mod_sub_char _ _ (by omega)]
            split_ifs at hchar ⊢ <;> omega
      refine ⟨_, hred, ?_, ?_⟩
      · apply logicalList_layout _ _ _ _ _ _ hh (by omega)
        rw [hszX, hlen']
      · rw [hszX]
  have hremContents : pos < sizeC s →
      ∃ s', removeC s pos = .ok ((logicalList s).getD pos default, s') ∧
        logicalList s' = (logicalList s).eraseIdx pos ∧ sizeC s' = sizeC s - 1 := by
    intro hlt
    have hS : sizeC s ≤ capC s := sizeC_le_capC s wf
    have hC : 0 < capC s := by omega
    have hh : s.head < capC s := by
      rcases wf.1 with h | ⟨h0, _, _⟩
      · exact h
      · omega
    have hlen' : ((logicalList s).eraseIdx pos).length = sizeC s - 1 := by
      rw [List.length_eraseIdx_of_lt (by rw [logicalList_length]; omega), logicalList_length]
    have hval : readSlot s ((s.head + pos) % capC s) = (logicalList s).getD pos default :=
      (logicalList_getD s pos hlt).symm
    have htmatch : (match s.tail with | some t => t | none => s.head) + capC s =
        s.head + sizeC s ∨ True := Or.inr trivial
    by_cases hside : pos ≤ sizeC s - pos
    · have hred : removeC s pos =
          .ok (readSlot s ((s.head + pos) % capC s),
            ⟨layoutFrom (capC s) (if s.head + 1 = capC s then 0 else s.head + 1)
               ((logicalList s).eraseIdx pos) s.buffer,
             if s.head + 1 = capC s then 0 else s.head + 1,
             some (match s.tail with | some t => t | none => s.head), s.policy⟩) := by
        simp only [removeC]
        rw [if_neg (by omega), if_pos hside]
      rcases ht : s.tail with _ | t
      · -- full buffer
        simp only [ht] at hred
        have hszfull : sizeC s = capC s := by simp [sizeC, ht]
        have hszX : sizeC (⟨layoutFrom (capC s)
            (if s.head + 1 = capC s then 0 else s.head + 1)
            ((logicalList s).eraseIdx pos) s.buffer,
            if s.head + 1 = capC s then 0 else s.head + 1,
            some s.head, s.policy⟩ : CircularBuffer T) = sizeC s - 1 := by
          rw [sizeC_mk_some, length_layoutFrom]
          by_cases hh1 : s.head + 1 = capC s
          · rw [if_pos hh1]
            rw [mod_sub_char _ _ (by omega)]
            split_ifs <;> omega
          · rw [if_neg hh1]
            rw [mod_sub_char _ _ (by omega)]
            split_ifs <;> omega
        rw [hval] at hred
        refine ⟨_, hred, ?_, hszX⟩
        apply logicalList_layout _ _ _ _ _ _ (by split_ifs <;> omega) (by omega)
        rw [hszX, hlen']
      · have htl : t < capC s := wf.2 t ht
        have hchar := sizeC_some s t ht hh htl
        simp only [ht] at hred
        have hszX : sizeC (⟨layoutFrom (capC s)
            (if s.head + 1 = capC s then 0 else s.head + 1)
            ((logicalList s).eraseIdx pos) s.buffer,
            if s.head + 1 = capC s then 0 else s.head + 1,
            some t, s.policy⟩ : CircularBuffer T) = sizeC s - 1 := by
          rw [sizeC_mk_some, length_layoutFrom]
          by_cases hh1 : s.head + 1 = capC s
          · rw [if_pos hh1]
            rw [mod_sub_char _ _ (by omega)]
            split_ifs at hchar ⊢ <;> omega
          · rw [if_neg hh1]
            rw [mod_sub_char _ _ (by omega)]
            split_ifs at hchar ⊢ <;> omega
        rw [hval] at hred
        refine ⟨_, hred, ?_, hszX⟩
        apply logicalList_layout _ _ _ _ _ _ (by split_ifs <;> omega) (by omega)
        rw [hszX, hlen']
    · have hred : removeC s pos =
          .ok (readSlot s ((s.head + pos) % capC s),
            ⟨layoutFrom (capC s) s.head ((logicalList s).eraseIdx pos) s.buffer,
             s.head,
             some (if (match s.tail with | some t => t | none => s.head) = 0 then capC s - 1
                   else (match s.tail with | some t => t | none => s.head) - 1),
             s.policy⟩) := by
        simp only [removeC]
        rw [if_neg (by omega), if_neg hside]
      rcases ht : s.tail with _ | t
      · simp only [ht] at hred
        have hszfull : sizeC s = capC s := by simp [sizeC, ht]
        have hszX : sizeC (⟨layoutFrom (capC s) s.head ((logicalList s).eraseIdx pos) s.buffer,
            s.head,
            some (if s.head = 0 then capC s - 1 else s.head - 1),
            s.policy⟩ : CircularBuffer T) = sizeC s - 1 := by
          rw [sizeC_mk_some, length_layoutFrom]
          by_cases hh0 : s.head = 0
          · rw [if_pos hh0]
            rw [mod_sub_char _ _ (by omega)]
            split_ifs <;> omega
          · rw [if_neg hh0]
            rw [mod_sub_char _ _ (by omega)]
            split_ifs <;> omega
        rw [hval] at hred
        refine ⟨_, hred, ?_, hszX⟩
        apply logicalList_layout _ _ _ _ _ _ hh (by omega)
        rw [hszX, hlen']
      · have htl : t < capC s := wf.2 t ht
        have hchar := sizeC_some s t ht hh htl
        simp only [ht] at hred
        have hszX : sizeC (⟨layoutFrom (capC s) s.head ((logicalList s).eraseIdx pos) s.buffer,
            s.head,
            some (if t = 0 then capC s - 1 else t - 1),
            s.policy⟩ : CircularBuffer T) = sizeC s - 1 := by
          rw [sizeC_mk_some, length_layoutFrom]
          by_cases ht0 : t = 0
          · rw [if_pos ht0]
            rw [mod_sub_char _ _ (by omega)]
            split_ifs at hchar ⊢ <;> omega
          · rw [if_neg ht0]
            rw [mod_sub_char _ _ (by omega)]
            split_ifs at hchar ⊢ <;> omega
        rw [hval] at hred
        refine ⟨_, hred, ?_, hszX⟩
        apply logicalList_layout _ _ _ _ _ _ hh (by omega)
        rw [hszX, hlen']
  refine ⟨?_, hok, hinsContents, ?_, hremContents⟩
  · constructor
    · intro h
      by_contra hnot
      push_neg at hnot
      obtain ⟨s', hs'⟩ := hok hnot
      rw [hs'] at h
      cases h
    · intro h
      simp only [insertC]
      rw [if_pos h]
  · constructor
    · intro h
      by_contra hnot
      push_neg at hnot
      obtain ⟨s', hs'⟩ := hremContents hnot
      rw [hs'.1] at h
      cases h
    · intro h
      simp only [removeC]
      rw [if_pos h]

/-- Witness for C4 on a concrete wrapped buffer of capacity 4 holding
10, 20, 30 starting at slot 2. -/
theorem circular_insert_remove_spec_witness :
    (insertC (⟨[some 30, none, some 10, some 20], 2, some 1, defaultBufferPolicy⟩ :
        CircularBuffer Nat) 5 0 = .error .outOfRange) ∧
    (∃ s', insertC (⟨[some 30, none, some 10, some 20], 2, some 1, defaultBufferPolicy⟩ :
        CircularBuffer Nat) 1 7 = .ok s' ∧
      logicalList s' = [10, 7, 20, 30] ∧ sizeC s' = 4) ∧
    (∃ s', removeC (⟨[some 30, none, some 10, some 20], 2, some 1, defaultBufferPolicy⟩ :
        CircularBuffer Nat) 1 = .ok (20, s') ∧
      logicalList s' = [10, 30] ∧ sizeC s' = 2) := by
  have wf : WfC (⟨[some 30, none, some 10, some 20], 2, some 1, defaultBufferPolicy⟩ :
      CircularBuffer Nat) := by
    constructor
    · left
      simp [capC]
    · intro t ht
      simp only [Option.some.injEq] at ht
      simp [capC]
      omega
  have h5 := circular_insert_remove_spec Nat
    (⟨[some 30, none, some 10, some 20], 2, some 1, defaultBufferPolicy⟩ : CircularBuffer Nat)
    5 0 wf
  have h1 := circular_insert_remove_spec Nat
    (⟨[some 30, none, some 10, some 20], 2, some 1, defaultBufferPolicy⟩ : CircularBuffer Nat)
    1 7 wf
  refine ⟨h5.1.mpr (by decide), ?_, ?_⟩
  · obtain ⟨s', hs1, hs2, hs3⟩ := h1.2.2.1 (by decide) (by decide)
    exact ⟨s', hs1, hs2.trans (by decide), by rw [hs3]; decide⟩
  · obtain ⟨s', hs1, hs2, hs3⟩ := h1.2.2.2.2 (by decide)
    refine ⟨s', ?_, hs2.trans (by decide), by rw [hs3]; decide⟩
    have : ((logicalList (⟨[some 30, none, some 10, some 20], 2, some 1, defaultBufferPolicy⟩ :
        CircularBuffer Nat)).getD 1 default) = 20 := by decide
    rw [this] at hs1
    exact hs1

/-! ## BlockyLinkedList: data model and constructor

Source: src/include/dsa/blocky_linked_list.hpp.  A chain is a doubly linked
list of nodes, each owning a CircularBuffer block of fixed capacity
blockSize + 1 with the ThrowOnFull policy.  The embedding keeps, per node,
the logical contents of its block (a List T in logical order); m_size and
m_blockSize are carried verbatim. -/

structure BlockyLinkedList (T : Type) where
  blocks : List (List T)
  size : Nat
  blockSize : Nat
deriving Repr, DecidableEq

/-- BlockyLinkedList::s_minimumBlockSize. -/
def s_minimumBlockSize : Nat := 3

/-- The BlockyLinkedList(std::size_t blockSize) constructor: throws
std::invalid_argument when blockSize < s_minimumBlockSize, otherwise yields
an empty chain (m_head null, m_size 0). -/
def blockyNew (T : Type) (blockSize : Nat) : Except Err (BlockyLinkedList T) :=
  if blockSize < s_minimumBlockSize then .error .invalidArgument
  else .ok ⟨[], 0, blockSize⟩

/-- The default constructor: all members take their default initializers,
in particular m_blockSize = s_minimumBlockSize. -/
def blockyDefault (T : Type) : BlockyLinkedList T :=
  ⟨[], 0, s_minimumBlockSize⟩

/-- C10: Constructing a BlockChain (BlockyLinkedList) with a block-size
parameter less than 3 fails with an invalid-argument error; the
default-constructed chain uses block size 3, and for every blockSize >= 3
construction succeeds and yields an empty chain of size 0. -/
theorem blocky_constructor_spec (T : Type) (b : Nat) :
    (b < 3 → blockyNew T b = .error .invalidArgument) ∧
    (3 ≤ b → blockyNew T b = .ok ⟨[], 0, b⟩) ∧
    (blockyDefault T).blockSize = 3 ∧ (blockyDefault T).size = 0 ∧
    (blockyDefault T).blocks = [] := by
  refine ⟨fun h => ?_, fun h => ?_, rfl, rfl, rfl⟩
  · simp [blockyNew, s_minimumBlockSize, h]
  · simp [blockyNew, s_minimumBlockSize]
    omega

/-- Witness for C10 at concrete block sizes 2 and 3. -/
theorem blocky_constructor_spec_witness :
    blockyNew Nat 2 = .error .invalidArgument ∧ blockyNew Nat 3 = .ok ⟨[], 0, 3⟩ :=
  ⟨(blocky_constructor_spec Nat 2).1 (by decide),
   (blocky_constructor_spec Nat 3).2.1 (by decide)⟩

/-- C5: For every pos, elementIndex(pos) = (block, local) satisfies
block (block + 1) / 2 + local = pos and 0 <= local <= block; in particular
this holds for every pos in [0, size). -/
theorem rootish_element_index_law (pos : Nat) :
    (elementIndex pos).1 * ((elementIndex pos).1 + 1) / 2 + (elementIndex pos).2 = pos ∧
    (elementIndex pos).2 ≤ (elementIndex pos).1 := by
  have h1 := elementBlock_tri_le pos
  have h2 := elementBlock_local_le pos
  exact ⟨by simp only [elementIndex]; omega, h2⟩

/-! ## BlockyLinkedList: operations

The chain is represented by the list of its nodes' block contents (in
order), plus m_size and m_blockSize.  Every block is a fixed
CircularBuffer of capacity blockSize + 1 with ThrowOnFull; the operations
below act on its logical contents, which is justified by the CircularBuffer
lemmas above (push_back appends, pop_front removes the front, and so on),
and the invariant proved for C1 shows the capacity is never exceeded, so
ThrowOnFull never fires. -/

/-- Sum of the block sizes of a node list. -/
def sumLen {T : Type} (l : List (List T)) : Nat :=
  (l.map List.length).sum

/-- The forward walk of BlockyLinkedList::locate (pos <= size/2 branch):
while (pos >= currentSize) { pos -= currentSize; current = next; }.
Walking off the tail is undefined behaviour in C++ (null dereference); the
model returns junk there, which the invariant proves unreachable. -/
def locFwd {T : Type} : List (List T) → Nat → Nat × Nat
  | [], p => (0, p)
  | blk :: rest, p =>
    if p < blk.length then (0, p)
    else
      match locFwd rest (p - blk.length) with
      | (i, off) => (i + 1, off)

/-- The backward walk of BlockyLinkedList::locate, expressed on the
reversed node list; idx is the start index of the node at the head of the
reversed list: while (pos < idx) { current = prev; idx -= current.size; }. -/
def locBwdAux {T : Type} : List (List T) → Nat → Nat → Nat × Nat
  | [], idx, p => (0, p - idx)
  | [_], idx, p => (0, p - idx)
  | _ :: prv :: rest, idx, p =>
    if p < idx then locBwdAux (prv :: rest) (idx - prv.length) p
    else (rest.length + 1, p - idx)

def locBwd {T : Type} (blocks : List (List T)) (size pos : Nat) : Nat × Nat :=
  match blocks.reverse with
  | [] => (0, pos)
  | cur :: rest => locBwdAux (cur :: rest) (size - cur.length) pos

/-- BlockyLinkedList::locate(pos): out-of-range check, then the walk from
the closer end.  Returns the node index and the offset inside its block. -/
def locateB {T : Type} (s : BlockyLinkedList T) (pos : Nat) : Except Err (Nat × Nat) :=
  if pos ≥ s.size then .error .outOfRange
  else if pos ≤ s.size / 2 then .ok (locFwd s.blocks pos)
  else .ok (locBwd s.blocks s.size pos)

/-- The scenario-determination walk shared by determineInsertScenario
(target = blockSize + 1) and determineRemoveScenario (target =
blockSize - 1): count the steps taken while the current block has exactly
the target size, stopping after fuel = blockSize steps, at the end of the
list, or at the first block of a different size. -/
def walkSteps {T : Type} (target : Nat) : Nat → List (List T) → Nat
  | 0, _ => 0
  | _ + 1, [] => 0
  | fuel + 1, blk :: rest =>
    if blk.length = target then walkSteps target fuel rest + 1 else 0

/-- The gap-propagation loop of BlockyLinkedList::insert (Shift and
EndOfList): walking back from the found node to the target node, every node
pushes its predecessor's original last element onto its own front (each
node gives its last before receiving, so the net contents are computed
front to back here).  The argument is the node segment from the target node
to the found node inclusive. -/
def giveChain {T : Type} [Inhabited T] : T → List (List T) → List (List T)
  | _, [] => []
  | v, [a] => [v :: a]
  | v, a :: b :: rest => (v :: a.dropLast) :: giveChain (a.getLastD default) (b :: rest)

def shiftSeg {T : Type} [Inhabited T] : List (List T) → List (List T)
  | [] => []
  | [a] => [a]
  | a :: b :: rest => a.dropLast :: giveChain (a.getLastD default) (b :: rest)

/-- The inner loop of BlockyLinkedList::spread: while (current.size < b)
current.push_front(prev.pop_back()).  Returns the updated (current, prev).
Pulling from an exhausted predecessor would throw in C++; the invariant
rules it out. -/
def fillFront {T : Type} [Inhabited T] (b : Nat) (a p : List T) : List T × List T :=
  if h : a.length < b then
    match p with
    | [] => (a, p)
    | _ :: _ => fillFront b (p.getLastD default :: a) p.dropLast
  else (a, p)
termination_by b - a.length
decreasing_by simp; omega

/-- The backward walk of BlockyLinkedList::spread, expressed on the
reversed segment (the new empty node first, the target node from last,
which the loop does not process). -/
def spreadRev {T : Type} [Inhabited T] (b : Nat) : List (List T) → List (List T)
  | [] => []
  | [a] => [a]
  | a :: p :: rest =>
    (fillFront b a p).1 :: spreadRev b ((fillFront b a p).2 :: rest)
termination_by l => l.length
decreasing_by simp

/-- BlockyLinkedList::spread restricted to the affected node segment
(the b full nodes followed by the freshly inserted empty node). -/
def spreadSeg {T : Type} [Inhabited T] (b : Nat) (seg : List (List T)) : List (List T) :=
  (spreadRev b seg.reverse).reverse

/-- The inner loop of BlockyLinkedList::gather: while (current.size < b)
current.push_back(next.pop_front()). -/
def fillBack {T : Type} (b : Nat) (a p : List T) : List T × List T :=
  if h : a.length < b then
    match p with
    | [] => (a, p)
    | x :: p' => fillBack b (a ++ [x]) p'
  else (a, p)
termination_by b - a.length
decreasing_by simp; omega

/-- BlockyLinkedList::gather on the node segment starting at the target
node: b - 1 iterations of fillBack each advancing one node, then the
landing node (drained by the pulls) is unlinked. -/
def gatherSteps {T : Type} (b : Nat) : Nat → List (List T) → List (List T)
  | 0, ls => ls.drop 1
  | _ + 1, [] => []
  | _ + 1, [a] => [a]
  | k + 1, a :: p :: rest => (fillBack b a p).1 :: gatherSteps b k ((fillBack b a p).2 :: rest)

/-- The forward rebalancing loop at the end of BlockyLinkedList::remove:
while (current.size < b - 1 and next != null)
  current.push_back(next.pop_front()), current = next;
followed by unlinking the stop node if its block is empty. -/
def cascadeRemove {T : Type} (bm1 : Nat) : List (List T) → List (List T)
  | [] => []
  | [a] => if a.length = 0 then [] else [a]
  | a :: nxt :: rest =>
    if a.length < bm1 then
      match nxt with
      | [] => a :: nxt :: rest
      | x :: nxt' => (a ++ [x]) :: cascadeRemove bm1 (nxt' :: rest)
    else if a.length = 0 then nxt :: rest
    else a :: nxt :: rest
termination_by l => l.length
decreasing_by simp

/-- Replace the node segment [i, j] of the chain by its image under f. -/
def applySeg {T : Type} (blocks : List (List T)) (i j : Nat)
    (f : List (List T) → List (List T)) : List (List T) :=
  blocks.take i ++ f ((blocks.drop i).take (j + 1 - i)) ++ blocks.drop (j + 1)

/-- BlockyLinkedList::push_back: initHead on an empty chain; a new tail
node when the tail block is full (blockSize + 1); otherwise a plain append
to the tail block. -/
def pushBackBLL {T : Type} (s : BlockyLinkedList T) (v : T) : BlockyLinkedList T :=
  match s.blocks with
  | [] => ⟨[[v]], s.size + 1, s.blockSize⟩
  | _ :: _ =>
    if (s.blocks.getLastD []).length = s.blockSize + 1 then
      ⟨s.blocks ++ [[v]], s.size + 1, s.blockSize⟩
    else
      ⟨s.blocks.dropLast ++ [s.blocks.getLastD [] ++ [v]], s.size + 1, s.blockSize⟩

/-- BlockyLinkedList::insert(pos, element): the push_back fast path for
pos == size (or an empty chain), then locate, scenario determination and
the Shift / EndOfList / Spread handling, then the local insert into the
target block. -/
def insertBLL {T : Type} [Inhabited T] (s : BlockyLinkedList T) (pos : Nat) (v : T) :
    Except Err (BlockyLinkedList T) :=
  if pos = s.size ∨ (s.size = 0 ∧ pos = 0) then .ok (pushBackBLL s v)
  else
    match locateB s pos with
    | .error e => .error e
    | .ok (i, off) =>
      if i + walkSteps (s.blockSize + 1) s.blockSize (s.blocks.drop i) = s.blocks.length then
        -- EndOfList: insertNodeAfter(m_tail) appends an empty node, the
        -- gap walk then runs from the new tail back to the target node
        let blocks2 := applySeg (s.blocks ++ [[]]) i s.blocks.length shiftSeg
        .ok ⟨blocks2.set i ((blocks2.getD i []).insertIdx off v), s.size + 1, s.blockSize⟩
      else if walkSteps (s.blockSize + 1) s.blockSize (s.blocks.drop i) = s.blockSize then
        -- Spread: a new empty node goes immediately before the node
        -- reached after exactly blockSize steps, then the backward pass
        let blocks2 := applySeg (s.blocks.insertIdx (i + s.blockSize) []) i
          (i + s.blockSize) (spreadSeg s.blockSize)
        .ok ⟨blocks2.set i ((blocks2.getD i []).insertIdx off v), s.size + 1, s.blockSize⟩
      else
        -- Shift
        let blocks2 := applySeg s.blocks i
          (i + walkSteps (s.blockSize + 1) s.blockSize (s.blocks.drop i)) shiftSeg
        .ok ⟨blocks2.set i ((blocks2.getD i []).insertIdx off v), s.size + 1, s.blockSize⟩

/-- BlockyLinkedList::remove(pos): locate, scenario determination (gather
when blockSize steps all hold blockSize - 1 elements and the list does not
end first), the local remove, then the forward rebalancing cascade.  The
error branch for an offset beyond the block size mirrors the rethrown
exception of the block remove and is unreachable under the invariant. -/
def removeBLL {T : Type} [Inhabited T] (s : BlockyLinkedList T) (pos : Nat) :
    Except Err (T × BlockyLinkedList T) :=
  match locateB s pos with
  | .error e => .error e
  | .ok (i, off) =>
    let blocks1 :=
      if i + walkSteps (s.blockSize - 1) s.blockSize (s.blocks.drop i) ≠ s.blocks.length ∧
         walkSteps (s.blockSize - 1) s.blockSize (s.blocks.drop i) = s.blockSize then
        s.blocks.take i ++ gatherSteps s.blockSize (s.blockSize - 1) (s.blocks.drop i)
      else s.blocks
    if hoff : off < (blocks1.getD i []).length then
      let value := (blocks1.getD i []).get ⟨off, hoff⟩
      let blocks2 := blocks1.set i ((blocks1.getD i []).eraseIdx off)
      .ok (value,
        ⟨blocks2.take i ++ cascadeRemove (s.blockSize - 1) (blocks2.drop i),
         s.size - 1, s.blockSize⟩)
    else .error .outOfRange

/-- BlockyLinkedList::push_front = insert(0, v). -/
def pushFrontBLL {T : Type} [Inhabited T] (s : BlockyLinkedList T) (v : T) :
    Except Err (BlockyLinkedList T) :=
  insertBLL s 0 v

/-- BlockyLinkedList::pop_front = remove(0). -/
def popFrontBLL {T : Type} [Inhabited T] (s : BlockyLinkedList T) :
    Except Err (T × BlockyLinkedList T) :=
  removeBLL s 0

/-- BlockyLinkedList::pop_back = remove(m_size - 1); on an empty chain the
C++ huge value and the Nat truncation both make locate throw. -/
def popBackBLL {T : Type} [Inhabited T] (s : BlockyLinkedList T) :
    Except Err (T × BlockyLinkedList T) :=
  removeBLL s (s.size - 1)

/-- A public mutating call on a BlockyLinkedList. -/
inductive BlockyOp (T : Type) where
  | ins (pos : Nat) (v : T)
  | rem (pos : Nat)
  | pushF (v : T)
  | pushB (v : T)
  | popF
  | popB
deriving Repr

/-- Apply one call; a call that raises an error leaves the chain unchanged
(the blocky error paths all throw before any mutation). -/
def applyBlockyOp {T : Type} [Inhabited T] (s : BlockyLinkedList T) :
    BlockyOp T → BlockyLinkedList T
  | .ins pos v => match insertBLL s pos v with | .ok s' => s' | .error _ => s
  | .rem pos => match removeBLL s pos with | .ok r => r.2 | .error _ => s
  | .pushF v => match pushFrontBLL s v with | .ok s' => s' | .error _ => s
  | .pushB v => pushBackBLL s v
  | .popF => match popFrontBLL s with | .ok r => r.2 | .error _ => s
  | .popB => match popBackBLL s with | .ok r => r.2 | .error _ => s

def applyBlockyOps {T : Type} [Inhabited T] (s : BlockyLinkedList T)
    (ops : List (BlockyOp T)) : BlockyLinkedList T :=
  ops.foldl applyBlockyOp s

/-! ### Chain invariant and supporting lemmas -/

/-- The BlockyLinkedList representation invariant: the block-size parameter
is at least the minimum 3, m_size equals the total number of stored
elements, every node except the last holds between blockSize - 1 and
blockSize + 1 elements, every node fits its capacity blockSize + 1, and the
last node is nonempty. -/
def InvB {T : Type} (s : BlockyLinkedList T) : Prop :=
  3 ≤ s.blockSize ∧
  s.size = sumLen s.blocks ∧
  (∀ blk ∈ s.blocks.dropLast, s.blockSize - 1 ≤ blk.length ∧ blk.length ≤ s.blockSize + 1) ∧
  (∀ blk ∈ s.blocks, blk.length ≤ s.blockSize + 1) ∧
  (s.blocks ≠ [] → 1 ≤ (s.blocks.getLastD []).length)

@[simp]
theorem sumLen_nil {T : Type} : sumLen ([] : List (List T)) = 0 := rfl

@[simp]
theorem sumLen_cons {T : Type} (a : List T) (l : List (List T)) :
    sumLen (a :: l) = a.length + sumLen l := by
  simp [sumLen]

@[simp]
theorem sumLen_append {T : Type} (l1 l2 : List (List T)) :
    sumLen (l1 ++ l2) = sumLen l1 + sumLen l2 := by
  simp [sumLen]

@[simp]
theorem sumLen_reverse {T : Type} (l : List (List T)) : sumLen l.reverse = sumLen l := by
  simp [sumLen, List.sum_reverse]

theorem getD_append_left {α : Type} (l1 l2 : List α) (n : Nat) (d : α) (h : n < l1.length) :
    (l1 ++ l2).getD n d = l1.getD n d := by
  simp [List.getD_eq_getElem?_getD, List.getElem?_append_left h]

theorem getD_append_at {α : Type} (l1 : List α) (x : α) (l2 : List α) (d : α) :
    (l1 ++ x :: l2).getD l1.length d = x := by
  simp [List.getD_eq_getElem?_getD, List.getElem?_append_right (le_refl _)]

theorem getLastD_append {α : Type} (l1 l2 : List α) (d : α) (h : l2 ≠ []) :
    (l1 ++ l2).getLastD d = l2.getLastD d := by
  rw [List.getLastD_eq_getLast?, List.getLastD_eq_getLast?, List.getLast?_append_of_ne_nil _ h]

theorem mem_take_of_mem_dropLast {α : Type} (l : List α) (i : Nat) (h : i < l.length) (x : α)
    (hx : x ∈ l.take i) : x ∈ l.dropLast := by
  rw [List.dropLast_eq_take]
  exact (List.take_prefix_take_left l (by omega)).subset hx

theorem walkSteps_le {T : Type} (target : Nat) :
    ∀ (fuel : Nat) (seg : List (List T)),
      walkSteps target fuel seg ≤ fuel ∧ walkSteps target fuel seg ≤ seg.length := by
  intro fuel
  induction fuel with
  | zero => intro seg; simp [walkSteps]
  | succ n ih =>
    intro seg
    cases seg with
    | nil => simp [walkSteps]
    | cons blk rest =>
      simp only [walkSteps]
      split_ifs with h
      · have := ih rest
        simp only [List.length_cons]
        omega
      · simp

theorem walkSteps_target {T : Type} (target : Nat) :
    ∀ (fuel : Nat) (seg : List (List T)) (j : Nat), j < walkSteps target fuel seg →
      (seg.getD j []).length = target := by
  intro fuel
  induction fuel with
  | zero => intro seg j h; simp [walkSteps] at h
  | succ n ih =>
    intro seg j h
    cases seg with
    | nil => simp [walkSteps] at h
    | cons blk rest =>
      simp only [walkSteps] at h
      split_ifs at h with htgt
      · cases j with
        | zero => simpa using htgt
        | succ j' =>
          simp only [List.getD_cons_succ]
          exact ih rest j' (by omega)
      · omega

theorem walkSteps_stop {T : Type} (target : Nat) :
    ∀ (fuel : Nat) (seg : List (List T)),
      walkSteps target fuel seg < fuel → walkSteps target fuel seg < seg.length →
      (seg.getD (walkSteps target fuel seg) []).length ≠ target := by
  intro fuel
  induction fuel with
  | zero => intro seg h1 _; omega
  | succ n ih =>
    intro seg h1 h2
    cases seg with
    | nil => simp at h2
    | cons blk rest =>
      simp only [walkSteps] at h1 h2 ⊢
      split_ifs at h1 h2 ⊢ with htgt
      · simp only [List.getD_cons_succ]
        exact ih rest (by omega) (by simpa using h2)
      · simpa using htgt

theorem locFwd_spec {T : Type} :
    ∀ (blocks : List (List T)) (pos : Nat), pos < sumLen blocks →
      (locFwd blocks pos).1 < blocks.length ∧
      (locFwd blocks pos).2 < (blocks.getD (locFwd blocks pos).1 []).length ∧
      sumLen (blocks.take (locFwd blocks pos).1) + (locFwd blocks pos).2 = pos := by
  intro blocks
  induction blocks with
  | nil => intro pos h; simp at h
  | cons blk rest ih =>
    intro pos h
    simp only [locFwd]
    split_ifs with hlt
    · exact ⟨by simp, by simpa using hlt, by simp⟩
    · have hrest : pos - blk.length < sumLen rest := by
        simp at h
        omega
      have hih := ih (pos - blk.length) hrest
      rcases hpr : locFwd rest (pos - blk.length) with ⟨i, off⟩
      rw [hpr] at hih
      dsimp only [hpr] at hih ⊢
      refine ⟨by simp; omega, by simpa using hih.2.1, ?_⟩
      simp only [List.take_succ_cons, sumLen_cons]
      have h2 := hih.2.2
      omega

theorem locBwdAux_spec {T : Type} :
    ∀ (rev : List (List T)) (cur : List T) (pos : Nat), pos < sumLen (cur :: rev) →
      (locBwdAux (cur :: rev) (sumLen rev) pos).1 < (cur :: rev).length ∧
      (locBwdAux (cur :: rev) (sumLen rev) pos).2 <
        (((cur :: rev).reverse).getD (locBwdAux (cur :: rev) (sumLen rev) pos).1 []).length ∧
      sumLen (((cur :: rev).reverse).take (locBwdAux (cur :: rev) (sumLen rev) pos).1) +
        (locBwdAux (cur :: rev) (sumLen rev) pos).2 = pos := by
  intro rev
  induction rev with
  | nil =>
    intro cur pos h
    simp only [locBwdAux]
    simp at h ⊢
    omega
  | cons prv rest ih =>
    intro cur pos h
    simp only [locBwdAux]
    split_ifs with hlt
    · have heq : sumLen (prv :: rest) - prv.length = sumLen rest := by
        simp
      rw [heq]
      have hih := ih prv pos (by simpa using hlt)
      obtain ⟨h1, h2, h3⟩ := hih
      have hlen : (locBwdAux (prv :: rest) (sumLen rest) pos).1 ≤
          ((prv :: rest).reverse).length := by
        simp at h1 ⊢
        omega
      refine ⟨by simp at h1 ⊢; omega, ?_, ?_⟩
      · have hrev : (cur :: prv :: rest).reverse = (prv :: rest).reverse ++ [cur] := by
          simp
        rw [hrev]
        by_cases hend : (locBwdAux (prv :: rest) (sumLen rest) pos).1 <
            ((prv :: rest).reverse).length
        · rw [getD_append_left _ _ _ _ hend]
          exact h2
        · exfalso
          simp at h1 hend
          omega
      · have hrev : (cur :: prv :: rest).reverse = (prv :: rest).reverse ++ [cur] := by
          simp
        rw [hrev, List.take_append_of_le_length hlen]
        exact h3
    · have hrev : (cur :: prv :: rest).reverse = (prv :: rest).reverse ++ [cur] := by
        simp
      have hlenrev : ((prv :: rest).reverse).length = rest.length + 1 := by
        simp
      refine ⟨by simp, ?_, ?_⟩
      · rw [hrev]
        have : (l : List (List T)) → l.length = rest.length + 1 →
            (l ++ [cur]).getD (rest.length + 1) [] = cur := fun l hl => by
          rw [← hl]
          exact getD_append_at l cur [] []
        rw [this ((prv :: rest).reverse) hlenrev]
        simp at h hlt ⊢
        omega
      · rw [hrev, ← hlenrev, List.take_left]
        simp at h hlt ⊢
        omega

theorem locateB_spec {T : Type} (s : BlockyLinkedList T) (pos : Nat)
    (hsum : s.size = sumLen s.blocks) (h : pos < s.size) :
    ∃ i off, locateB s pos = .ok (i, off) ∧ i < s.blocks.length ∧
      off < (s.blocks.getD i []).length ∧ sumLen (s.blocks.take i) + off = pos := by
  have hpos : pos < sumLen s.blocks := by omega
  simp only [locateB]
  rw [if_neg (by omega)]
  split_ifs with hhalf
  · have hf := locFwd_spec s.blocks pos hpos
    exact ⟨(locFwd s.blocks pos).1, (locFwd s.blocks pos).2, rfl, hf.1, hf.2.1, hf.2.2⟩
  · cases hrev : s.blocks.reverse with
    | nil =>
      exfalso
      have : s.blocks = [] := by
        have := congrArg List.reverse hrev
        simpa using this
      rw [this] at hpos
      simp at hpos
    | cons cur rest =>
      have hblocks : s.blocks = (cur :: rest).reverse := by
        have := congrArg List.reverse hrev
        simpa using this
      have hsum2 : sumLen (cur :: rest) = sumLen s.blocks := by
        rw [hblocks, sumLen_reverse]
      have hszcur : s.size - cur.length = sumLen rest := by
        simp at hsum2
        omega
      have hb := locBwdAux_spec rest cur pos (by simp at hsum2 ⊢; omega)
      simp only [locBwd, hrev, hszcur]
      refine ⟨(locBwdAux (cur :: rest) (sumLen rest) pos).1,
              (locBwdAux (cur :: rest) (sumLen rest) pos).2, rfl, ?_, ?_, ?_⟩
      · rw [hblocks]
        simpa using hb.1
      · rw [hblocks]
        exact hb.2.1
      · rw [hblocks]
        exact hb.2.2

theorem getLastD_irrel {α : Type} (l : List α) (h : l ≠ []) (d d' : α) :
    l.getLastD d = l.getLastD d' := by
  rw [List.getLastD_eq_getLast?, List.getLastD_eq_getLast?, List.getLast?_eq_getLast _ h]
  rfl

theorem dropLast_append_getLastD {α : Type} (l : List α) (d : α) (h : l ≠ []) :
    l.dropLast ++ [l.getLastD d] = l := by
  rw [List.getLastD_eq_getLast?, List.getLast?_eq_getLast _ h]
  simp
  exact List.dropLast_append_getLast h

theorem giveChain_map_len {T : Type} [Inhabited T] :
    ∀ (mids : List (List T)) (lastb : List T) (v : T), (∀ x ∈ mids, x ≠ []) →
      (giveChain v (mids ++ [lastb])).map List.length =
        mids.map List.length ++ [lastb.length + 1] := by
  intro mids
  induction mids with
  | nil => intro lastb v _; simp [giveChain]
  | cons m ms ih =>
    intro lastb v hne
    have hm : m ≠ [] := hne m (by simp)
    have hrec := ih lastb (m.getLastD default) (fun x hx => hne x (by simp [hx]))
    have hpos : 0 < m.length := List.length_pos.mpr hm
    cases ms with
    | nil =>
      simp [giveChain]
      omega
    | cons m2 ms2 =>
      simp only [List.cons_append, giveChain, List.map_cons, List.append_eq] at hrec ⊢
      rw [hrec]
      simp
      omega

theorem shiftSeg_spec {T : Type} [Inhabited T] (u : List T) (mids : List (List T))
    (lastb : List T) (hu : u ≠ []) (hmids : ∀ x ∈ mids, x ≠ []) :
    ∃ tl, shiftSeg (u :: mids ++ [lastb]) = u.dropLast :: tl ∧
      tl.map List.length = mids.map List.length ++ [lastb.length + 1] := by
  cases mids with
  | nil =>
    refine ⟨[u.getLastD default :: lastb], ?_, by simp⟩
    simp [shiftSeg, giveChain]
  | cons m ms =>
    refine ⟨giveChain (u.getLastD default) ((m :: ms) ++ [lastb]), ?_, ?_⟩
    · simp [shiftSeg]
    · exact giveChain_map_len (m :: ms) lastb (u.getLastD default) hmids

theorem fillBack_spec {T : Type} (b : Nat) :
    ∀ (n : Nat) (a p : List T), n = b - a.length → n ≤ p.length →
      fillBack b a p = (a ++ p.take n, p.drop n) := by
  intro n
  induction n with
  | zero =>
    intro a p hn _
    rw [fillBack.eq_def]
    rw [dif_neg (by omega)]
    simp
  | succ k ih =>
    intro a p hn hp
    cases p with
    | nil => simp at hp
    | cons x p' =>
      rw [fillBack.eq_def]
      rw [dif_pos (by omega)]
      have hrec := ih (a ++ [x]) p' (by simp; omega) (by simp at hp ⊢; omega)
      show fillBack b (a ++ [x]) p' = _
      rw [hrec]
      simp

theorem fillFront_spec {T : Type} [Inhabited T] (b : Nat) :
    ∀ (n : Nat) (a p : List T), n = b - a.length → n ≤ p.length →
      fillFront b a p = (p.drop (p.length - n) ++ a, p.take (p.length - n)) := by
  intro n
  induction n with
  | zero =>
    intro a p hn _
    rw [fillFront.eq_def]
    rw [dif_neg (by omega)]
    simp
  | succ k ih =>
    intro a p hn hp
    cases p with
    | nil => simp at hp
    | cons x p2 =>
      have hpne : x :: p2 ≠ [] := by simp
      rw [fillFront.eq_def]
      rw [dif_pos (by omega)]
      show fillFront b ((x :: p2).getLastD default :: a) (x :: p2).dropLast = _
      have hlen : (x :: p2).dropLast.length = (x :: p2).length - 1 :=
        List.length_dropLast (x :: p2)
      have hplen : 1 ≤ (x :: p2).length := by simp
      have hplen2 : k + 1 ≤ (x :: p2).length := hp
      have hrec := ih ((x :: p2).getLastD default :: a) (x :: p2).dropLast
        (by simp; omega) (by omega)
      rw [hrec]
      have hsplit : (x :: p2).dropLast ++ [(x :: p2).getLastD default] = x :: p2 :=
        dropLast_append_getLastD (x :: p2) _ hpne
      simp only [Prod.mk.injEq]
      set D := (x :: p2).dropLast with hD
      set g := (x :: p2).getLastD default with hg
      constructor
      · rw [← hsplit]
        simp only [List.length_append, List.length_singleton]
        have hidx : D.length + 1 - (k + 1) = D.length - k := by omega
        rw [hidx]
        rw [List.drop_append_of_le_length (by omega)]
        simp
      · rw [← hsplit]
        simp only [List.length_append, List.length_singleton]
        have hidx2 : D.length + 1 - (k + 1) = D.length - k := by omega
        rw [hidx2]
        rw [List.take_append_of_le_length (by omega)]

theorem spreadRev_spec {T : Type} [Inhabited T] (b : Nat) :
    ∀ (Fs : List (List T)) (a : List T), (∀ F ∈ Fs, F.length = b + 1) →
      a.length + Fs.length = b →
      (spreadRev b (a :: Fs)).map List.length = List.replicate (Fs.length + 1) b ∧
      (spreadRev b (a :: Fs)).reverse.flatten = (a :: Fs).reverse.flatten := by
  intro Fs
  induction Fs with
  | nil =>
    intro a _ hlen
    simp only [spreadRev]
    simp at hlen
    simp [hlen]
  | cons F Fs' ih =>
    intro a hF hlen
    have hFlen : F.length = b + 1 := hF F (by simp)
    have hlen2 : a.length + (Fs'.length + 1) = b := by simpa using hlen
    have hN : b - a.length ≤ F.length := by omega
    have hff := fillFront_spec b (b - a.length) a F rfl hN
    have ha' : ((fillFront b a F).1).length = b := by
      rw [hff]
      simp
      omega
    have hp' : ((fillFront b a F).2).length = a.length + 1 := by
      rw [hff]
      simp
      omega
    have hih := ih (fillFront b a F).2
      (fun F2 hF2 => hF F2 (by simp [hF2])) (by omega)
    rw [show spreadRev b (a :: F :: Fs') =
      (fillFront b a F).1 :: spreadRev b ((fillFront b a F).2 :: Fs') from by
        rw [spreadRev.eq_def]]
    constructor
    · simp only [List.map_cons, hih.1, ha']
      simp [List.replicate_succ]
    · simp only [List.reverse_cons, List.flatten_append, List.flatten_cons, List.flatten_nil,
        List.append_nil]
      rw [hih.2]
      simp only [List.reverse_cons, List.flatten_append, List.flatten_cons, List.flatten_nil,
        List.append_nil]
      rw [hff]
      simp only [List.append_assoc]
      congr 1
      rw [← List.append_assoc, List.take_append_drop]

theorem spreadSeg_spec {T : Type} [Inhabited T] (b : Nat) (Fs : List (List T))
    (hF : ∀ F ∈ Fs, F.length = b + 1) (hlen : Fs.length = b) :
    (spreadSeg b (Fs ++ [[]])).map List.length = List.replicate (b + 1) b ∧
    (spreadSeg b (Fs ++ [[]])).flatten = (Fs ++ [([] : List T)]).flatten := by
  have hrev : (Fs ++ [([] : List T)]).reverse = [] :: Fs.reverse := by
    simp
  have hspec := spreadRev_spec b Fs.reverse []
    (fun F hF2 => hF F (by simpa using hF2)) (by simpa using hlen)
  constructor
  · simp only [spreadSeg, hrev]
    rw [List.map_reverse, hspec.1]
    simp [hlen]
  · simp only [spreadSeg, hrev]
    have := hspec.2
    rw [this]
    simp

theorem gatherSteps_spec {T : Type} (b : Nat) (hb : 1 ≤ b) :
    ∀ (k : Nat) (c : List T) (us rest : List (List T)),
      k ≤ b → c.length = k → us.length = k → (∀ u ∈ us, u.length = b - 1) →
      ∃ out, gatherSteps b k (c :: (us ++ rest)) = out ++ rest ∧ out.length = k ∧
        (∀ x ∈ out, x.length = b) ∧ sumLen out = c.length + sumLen us := by
  intro k
  induction k with
  | zero =>
    intro c us rest _ hc hus _
    have : us = [] := List.length_eq_zero.mp hus
    subst this
    refine ⟨[], ?_, rfl, by simp, by simp [hc]⟩
    simp [gatherSteps]
  | succ k' ih =>
    intro c us rest hk hc hus huall
    cases us with
    | nil => simp at hus
    | cons u us' =>
      have hu : u.length = b - 1 := huall u (by simp)
      have hfb := fillBack_spec b (b - c.length) c u rfl (by omega)
      have hc' : ((fillBack b c u).1).length = b := by
        rw [hfb]
        simp
        omega
      have hu' : ((fillBack b c u).2).length = k' := by
        rw [hfb]
        simp
        omega
      have hih := ih (fillBack b c u).2 us' rest (by omega) hu' (by simpa using hus)
        (fun x hx => huall x (by simp [hx]))
      obtain ⟨out', hout1, hout2, hout3, hout4⟩ := hih
      refine ⟨(fillBack b c u).1 :: out', ?_, by simp [hout2], ?_, ?_⟩
      · show (fillBack b c u).1 :: gatherSteps b k' ((fillBack b c u).2 :: (us' ++ rest)) = _
        rw [hout1]
        simp
      · intro x hx
        rcases List.mem_cons.mp hx with rfl | hx2
        · exact hc'
        · exact hout3 x hx2
      · simp only [sumLen_cons] at hout4 ⊢
        rw [hc', hout4, hu', hu]
        omega

/-! ### Generic list helpers for the chain-invariant proofs -/

theorem getLastD_mem {α : Type} (l : List α) (d : α) (h : l ≠ []) : l.getLastD d ∈ l := by
  have hm := List.getLast_mem h
  rw [List.getLastD_eq_getLast?, List.getLast?_eq_getLast _ h]
  simpa using hm

theorem getLast?_map_length {T : Type} :
    ∀ (l : List (List T)), (l.map List.length).getLast? = l.getLast?.map List.length
  | [] => by simp
  | [a] => by simp
  | a :: b :: t => by
    simp only [List.map_cons, List.getLast?_cons_cons]
    exact getLast?_map_length (b :: t)

theorem length_getLastD_map {T : Type} (l : List (List T)) (h : l ≠ []) :
    (l.getLastD []).length = (l.map List.length).getLastD 0 := by
  rw [List.getLastD_eq_getLast?, List.getLastD_eq_getLast?, getLast?_map_length,
    List.getLast?_eq_getLast _ h]
  simp

theorem dropLast_map_length {T : Type} :
    ∀ (l : List (List T)), l.dropLast.map List.length = (l.map List.length).dropLast
  | [] => by simp
  | [a] => by simp
  | a :: b :: t => by
    simp only [List.dropLast_cons₂, List.map_cons, List.cons.injEq]
    exact ⟨trivial, dropLast_map_length (b :: t)⟩

theorem mem_split_last {α : Type} (l : List α) (x : α) (d : α) (h : l ≠ []) (hx : x ∈ l) :
    x ∈ l.dropLast ∨ x = l.getLastD d := by
  rw [← dropLast_append_getLastD l d h] at hx
  rcases List.mem_append.mp hx with h1 | h2
  · exact Or.inl h1
  · exact Or.inr (by simpa using h2)

theorem map_length_replicate {T : Type} :
    ∀ (l : List (List T)) (c : Nat), (∀ x ∈ l, x.length = c) →
      l.map List.length = List.replicate l.length c
  | [], _, _ => by simp
  | a :: t, c, h => by
    simp only [List.map_cons, List.length_cons, List.replicate_succ, List.cons.injEq]
    exact ⟨h a (by simp), map_length_replicate t c (fun x hx => h x (by simp [hx]))⟩

theorem sum_replicate_nat : ∀ (n c : Nat), (List.replicate n c).sum = n * c
  | 0, c => by simp
  | n + 1, c => by
    simp only [List.replicate_succ, List.sum_cons, sum_replicate_nat n c]
    ring

theorem set_append_len {α : Type} :
    ∀ (A : List α) (x y : α) (B : List α), (A ++ x :: B).set A.length y = A ++ y :: B
  | [], x, y, B => by simp
  | a :: A', x, y, B => by
    simp only [List.cons_append, List.length_cons, List.set_cons_succ, List.cons.injEq]
    exact ⟨trivial, set_append_len A' x y B⟩

theorem set_append_len' {α : Type} (A : List α) (x y : α) (B : List α) (n : Nat)
    (h : A.length = n) : (A ++ x :: B).set n y = A ++ y :: B := by
  rw [← h]
  exact set_append_len A x y B

theorem getD_append_at' {α : Type} (l1 : List α) (x : α) (l2 : List α) (d : α) (n : Nat)
    (h : l1.length = n) : (l1 ++ x :: l2).getD n d = x := by
  rw [← h]
  exact getD_append_at l1 x l2 d

theorem insertIdx_decomp {α : Type} :
    ∀ (n : Nat) (l : List α) (x : α), n ≤ l.length →
      l.insertIdx n x = l.take n ++ x :: l.drop n
  | 0, l, x, _ => by simp
  | n + 1, [], x, h => by simp at h
  | n + 1, a :: l', x, h => by
    simp only [List.insertIdx_succ_cons, List.take_succ_cons, List.drop_succ_cons,
      List.cons_append, List.cons.injEq]
    exact ⟨trivial, insertIdx_decomp n l' x (by simpa using h)⟩

theorem length_insertIdx_of_le {α : Type} (n : Nat) (l : List α) (x : α) (h : n ≤ l.length) :
    (l.insertIdx n x).length = l.length + 1 := by
  rw [insertIdx_decomp n l x h]
  simp
  omega

theorem dropLast_cons_ne {α : Type} (a : α) (l : List α) (h : l ≠ []) :
    (a :: l).dropLast = a :: l.dropLast := by
  cases l with
  | nil => exact absurd rfl h
  | cons b t => simp [List.dropLast_cons₂]

theorem dropLast_append_ne {α : Type} :
    ∀ (A B : List α), B ≠ [] → (A ++ B).dropLast = A ++ B.dropLast
  | [], B, _ => by simp
  | a :: A', B, h => by
    have hne : A' ++ B ≠ [] := by simp [h]
    simp only [List.cons_append]
    rw [dropLast_cons_ne a (A' ++ B) hne, dropLast_append_ne A' B h]

theorem dropLast_drop_subset {α : Type} :
    ∀ (n : Nat) (l : List α), ∀ x ∈ (l.drop n).dropLast, x ∈ l.dropLast
  | 0, l => by simp
  | n + 1, [] => by simp
  | n + 1, a :: l' => by
    intro x hx
    simp only [List.drop_succ_cons] at hx
    have h1 : x ∈ l'.dropLast := dropLast_drop_subset n l' x hx
    cases l' with
    | nil => simp at h1
    | cons b t =>
      rw [dropLast_cons_ne a (b :: t) (by simp)]
      exact List.mem_cons_of_mem a h1

theorem sumLen_split_last {T : Type} (l : List (List T)) (h : l ≠ []) :
    sumLen l = sumLen l.dropLast + (l.getLastD []).length := by
  conv_lhs => rw [← dropLast_append_getLastD l [] h]
  simp

theorem getD_take' {α : Type} (l : List α) (m j : Nat) (d : α) (h : j < m) :
    (l.take m).getD j d = l.getD j d := by
  simp [List.getD_eq_getElem?_getD, List.getElem?_take, h]

theorem getD_drop' {α : Type} (l : List α) (i j : Nat) (d : α) :
    (l.drop i).getD j d = l.getD (i + j) d := by
  simp [List.getD_eq_getElem?_getD, List.getElem?_drop]

theorem walkSteps_take {T : Type} (target : Nat) :
    ∀ (fuel : Nat) (seg : List (List T)),
      ∀ x ∈ seg.take (walkSteps target fuel seg), x.length = target := by
  intro fuel
  induction fuel with
  | zero => intro seg x hx; simp [walkSteps] at hx
  | succ n ih =>
    intro seg x hx
    cases seg with
    | nil => simp [walkSteps] at hx
    | cons blk rest =>
      simp only [walkSteps] at hx
      split_ifs at hx with h
      · simp only [List.take_succ_cons] at hx
        rcases List.mem_cons.mp hx with rfl | hx2
        · exact h
        · exact ih rest x hx2
      · simp at hx

theorem walkSteps_full {T : Type} (target : Nat) :
    ∀ (fuel : Nat) (seg : List (List T)), fuel ≤ seg.length →
      (∀ j, j < fuel → (seg.getD j []).length = target) →
      walkSteps target fuel seg = fuel := by
  intro fuel
  induction fuel with
  | zero => intro seg _ _; simp [walkSteps]
  | succ n ih =>
    intro seg hlen hj
    cases seg with
    | nil => simp at hlen
    | cons blk rest =>
      have h0 : blk.length = target := by simpa using hj 0 (by omega)
      simp only [walkSteps, if_pos h0]
      rw [ih rest (by simpa using hlen) (fun j hjn => by simpa using hj (j + 1) (by omega))]

/-- Packaging lemma: the five invariant clauses for an explicitly given
chain state. -/
theorem invB_mk {T : Type} (L : List (List T)) (n b : Nat)
    (h1 : 3 ≤ b) (h2 : n = sumLen L)
    (h3 : ∀ blk ∈ L.dropLast, b - 1 ≤ blk.length ∧ blk.length ≤ b + 1)
    (h4 : ∀ blk ∈ L, blk.length ≤ b + 1)
    (h5 : L ≠ [] → 1 ≤ (L.getLastD []).length) :
    InvB (⟨L, n, b⟩ : BlockyLinkedList T) :=
  ⟨h1, h2, h3, h4, h5⟩

/-- The forward rebalancing cascade of remove preserves the invariant on
its node segment: it keeps the total element count, keeps every block but
the last in [b-1, b+1], and either empties the segment completely (only
when it consisted of one empty block) or leaves a nonempty last block. -/
theorem cascadeRemove_spec {T : Type} (b : Nat) (hb : 3 ≤ b) :
    ∀ (ds : List (List T)) (c : List T),
      (ds ≠ [] → b - 2 ≤ c.length) → c.length ≤ b + 1 →
      (∀ d ∈ ds.dropLast, b - 1 ≤ d.length ∧ d.length ≤ b + 1) →
      (∀ d ∈ ds, d.length ≤ b + 1) →
      (ds ≠ [] → 1 ≤ (ds.getLastD []).length) →
      (cascadeRemove (b - 1) (c :: ds) = [] ∧ c.length = 0 ∧ ds = []) ∨
      (sumLen (cascadeRemove (b - 1) (c :: ds)) = c.length + sumLen ds ∧
       (∀ x ∈ (cascadeRemove (b - 1) (c :: ds)).dropLast,
          b - 1 ≤ x.length ∧ x.length ≤ b + 1) ∧
       (∀ x ∈ cascadeRemove (b - 1) (c :: ds), x.length ≤ b + 1) ∧
       cascadeRemove (b - 1) (c :: ds) ≠ [] ∧
       1 ≤ ((cascadeRemove (b - 1) (c :: ds)).getLastD []).length) := by
  intro ds
  induction ds with
  | nil =>
    intro c _ hc1 _ _ _
    by_cases hc : c.length = 0
    · left
      refine ⟨?_, hc, rfl⟩
      simp [cascadeRemove, hc]
    · right
      rw [show cascadeRemove (b - 1) [c] = [c] from by simp [cascadeRemove, hc]]
      refine ⟨by simp, by simp, by simpa using hc1, by simp, by simpa using Nat.pos_of_ne_zero hc⟩
  | cons nxt rest ih =>
    intro c hc0 hc1 hint hall hlast
    have hcb : b - 2 ≤ c.length := hc0 (by simp)
    have hnxt_ne : nxt ≠ [] := by
      intro hn
      cases rest with
      | nil =>
        have := hlast (by simp)
        simp [hn] at this
      | cons r rest' =>
        have := (hint nxt (by rw [dropLast_cons_ne nxt (r :: rest') (by simp)]; simp)).1
        rw [hn] at this
        simp at this
        omega
    by_cases hpull : c.length < b - 1
    · -- the block pulls the head of the next block and the cascade moves on
      obtain ⟨x, nxt', rfl⟩ : ∃ x nxt', nxt = x :: nxt' := by
        cases nxt with
        | nil => exact absurd rfl hnxt_ne
        | cons x nxt' => exact ⟨x, nxt', rfl⟩
      rw [show cascadeRemove (b - 1) (c :: (x :: nxt') :: rest) =
          (c ++ [x]) :: cascadeRemove (b - 1) (nxt' :: rest) from by
        rw [cascadeRemove.eq_def]
        simp [hpull]]
      have hrec := ih nxt'
        (fun hr => by
          have := (hint (x :: nxt') (by rw [dropLast_cons_ne _ rest hr]; simp)).1
          simp at this
          omega)
        (by
          have := hall (x :: nxt') (by simp)
          simp at this
          omega)
        (fun d hd => hint d (by
          cases rest with
          | nil => simp at hd
          | cons r rest' =>
            rw [dropLast_cons_ne _ (r :: rest') (by simp)]
            exact List.mem_cons_of_mem _ hd))
        (fun d hd => hall d (by simp [hd]))
        (fun hr => by
          have hl := hlast (by simp)
          rwa [show ((x :: nxt') :: rest).getLastD [] = rest.getLastD [] from by
            rw [List.getLastD_cons]
            exact getLastD_irrel _ hr _ _] at hl)
      have hcge : b - 1 ≤ c.length + 1 := by omega
      have hcle : c.length + 1 ≤ b + 1 := by omega
      rcases hrec with ⟨hnil, hlen0, hrest0⟩ | ⟨hsum, hdrop, hle, hne, hlst⟩
      · subst hrest0
        rw [hnil]
        right
        have hnxt'0 : nxt' = [] := List.length_eq_zero.mp hlen0
        subst hnxt'0
        refine ⟨by simp, by simp, ?_, by simp, by simp⟩
        intro y hy
        simp at hy
        subst hy
        simp only [List.length_append, List.length_singleton]
        omega
      · right
        have hne2 : cascadeRemove (b - 1) (nxt' :: rest) ≠ [] := hne
        refine ⟨?_, ?_, ?_, by simp, ?_⟩
        · simp only [sumLen_cons] at hsum ⊢
          simp [hsum]
          omega
        · intro y hy
          rw [dropLast_cons_ne _ _ hne2] at hy
          rcases List.mem_cons.mp hy with rfl | hy2
          · simp
            omega
          · exact hdrop y hy2
        · intro y hy
          rcases List.mem_cons.mp hy with rfl | hy2
          · simpa using hcle
          · exact hle y hy2
        · rwa [show ((c ++ [x]) :: cascadeRemove (b - 1) (nxt' :: rest)).getLastD [] =
              (cascadeRemove (b - 1) (nxt' :: rest)).getLastD [] from by
            rw [List.getLastD_cons]
            exact getLastD_irrel _ hne2 _ _]
    · -- the block already holds at least b - 1 elements: nothing changes
      have hc0' : c.length ≠ 0 := by omega
      rw [show cascadeRemove (b - 1) (c :: nxt :: rest) = c :: nxt :: rest from by
        rw [cascadeRemove.eq_def]
        simp [hpull, hc0']]
      right
      refine ⟨by simp, ?_, ?_, by simp, ?_⟩
      · intro y hy
        rw [dropLast_cons_ne _ _ (by simp)] at hy
        rcases List.mem_cons.mp hy with rfl | hy2
        · omega
        · exact hint y hy2
      · intro y hy
        rcases List.mem_cons.mp hy with rfl | hy2
        · exact hc1
        · exact hall y hy2
      · rw [show (c :: nxt :: rest).getLastD [] = (nxt :: rest).getLastD [] from by
          rw [List.getLastD_cons]
          exact getLastD_irrel _ (by simp) _ _]
        exact hlast (by simp)

/-- push_back preserves the chain invariant and the block-size parameter. -/
theorem pushBackBLL_inv {T : Type} (s : BlockyLinkedList T) (v : T) (hinv : InvB s) :
    InvB (pushBackBLL s v) ∧ (pushBackBLL s v).blockSize = s.blockSize := by
  obtain ⟨hb, hsz, hint, hall, hlast⟩ := hinv
  rcases hblk : s.blocks with _ | ⟨x, xs⟩
  · have hred : pushBackBLL s v = ⟨[[v]], s.size + 1, s.blockSize⟩ := by
      rw [pushBackBLL.eq_def, hblk]
    rw [hred]
    have hsz0 : s.size = 0 := by rw [hsz, hblk]; rfl
    refine ⟨invB_mk _ _ _ hb ?_ ?_ ?_ ?_, rfl⟩
    · rw [hsz0]
      rfl
    · simp
    · intro blk hblk2
      simp at hblk2
      subst hblk2
      simp
    · intro _
      simp
  · have hne : (x :: xs : List (List T)) ≠ [] := by simp
    rw [hblk] at hsz hint hall hlast
    have hred : pushBackBLL s v =
        if ((x :: xs).getLastD []).length = s.blockSize + 1 then
          ⟨(x :: xs) ++ [[v]], s.size + 1, s.blockSize⟩
        else
          ⟨(x :: xs).dropLast ++ [(x :: xs).getLastD [] ++ [v]], s.size + 1, s.blockSize⟩ := by
      rw [pushBackBLL.eq_def, hblk]
    rw [hred]
    split_ifs with hfull
    · refine ⟨invB_mk _ _ _ hb ?_ ?_ ?_ ?_, rfl⟩
      · rw [hsz]
        simp only [sumLen_append, sumLen_cons, sumLen_nil, List.length_singleton]
      · intro blk hblk2
        simp only [List.dropLast_concat] at hblk2
        rcases mem_split_last (x :: xs) blk [] hne hblk2 with h1 | h2
        · exact hint blk h1
        · rw [h2, hfull]
          omega
      · intro blk hblk2
        rcases List.mem_append.mp hblk2 with h1 | h2
        · exact hall blk h1
        · simp at h2
          subst h2
          simp only [List.length_singleton]
          omega
      · intro _
        rw [getLastD_append _ _ _ (by simp)]
        simp
    · have hlen : ((x :: xs).getLastD []).length ≤ s.blockSize := by
        have := hall _ (getLastD_mem (x :: xs) [] hne)
        omega
      refine ⟨invB_mk _ _ _ hb ?_ ?_ ?_ ?_, rfl⟩
      · rw [hsz, sumLen_split_last (x :: xs) hne]
        simp only [sumLen_append, sumLen_cons, sumLen_nil, List.length_append,
          List.length_singleton]
        omega
      · intro blk hblk2
        simp only [List.dropLast_concat] at hblk2
        exact hint blk hblk2
      · intro blk hblk2
        rcases List.mem_append.mp hblk2 with h1 | h2
        · exact hall blk ((List.dropLast_sublist (x :: xs)).subset h1)
        · simp only [List.mem_singleton] at h2
          subst h2
          simp only [List.length_append, List.length_singleton]
          omega
      · intro _
        rw [getLastD_append _ _ _ (by simp)]
        simp

/-- A successful locate implies the position was in range and returns the
prefix-sum decomposition of the position. -/
theorem locateB_ok {T : Type} (s : BlockyLinkedList T) (pos i off : Nat)
    (hsum : s.size = sumLen s.blocks) (h : locateB s pos = .ok (i, off)) :
    pos < s.size ∧ i < s.blocks.length ∧ off < (s.blocks.getD i []).length ∧
      sumLen (s.blocks.take i) + off = pos := by
  have hlt : pos < s.size := by
    by_contra hge
    rw [locateB, if_pos (by omega)] at h
    exact absurd h (by simp)
  obtain ⟨i', off', heq, h1, h2, h3⟩ := locateB_spec s pos hsum hlt
  rw [heq] at h
  simp only [Except.ok.injEq, Prod.mk.injEq] at h
  obtain ⟨rfl, rfl⟩ := h
  exact ⟨hlt, h1, h2, h3⟩

/-- The EndOfList insert scenario preserves the invariant: the walk ran off
the tail, a fresh empty node is linked after the old tail, the gap
propagates back to the target node and the element lands at its offset. -/
theorem insert_end_inv {T : Type} [Inhabited T] (b i off : Nat) (L : List (List T)) (v : T)
    (hb : 3 ≤ b) (hi : i < L.length) (hoff : off < (L.getD i []).length)
    (hint : ∀ blk ∈ L.dropLast, b - 1 ≤ blk.length ∧ blk.length ≤ b + 1)
    (hall : ∀ blk ∈ L, blk.length ≤ b + 1)
    (hEnd : i + walkSteps (b + 1) b (L.drop i) = L.length) :
    InvB (⟨(applySeg (L ++ [[]]) i L.length shiftSeg).set i
        (((applySeg (L ++ [[]]) i L.length shiftSeg).getD i []).insertIdx off v),
      sumLen L + 1, b⟩ : BlockyLinkedList T) := by
  have hwle := walkSteps_le (b + 1) b (L.drop i)
  have hseglen : (L.drop i).length = L.length - i := List.length_drop i L
  have hw : walkSteps (b + 1) b (L.drop i) = (L.drop i).length := by omega
  have htk : (L.drop i).take (walkSteps (b + 1) b (L.drop i)) = L.drop i := by
    rw [hw]
    exact List.take_length _
  have hfull2 : ∀ x ∈ L.drop i, x.length = b + 1 := by
    intro x hx
    apply walkSteps_take (b + 1) b (L.drop i) x
    rw [htk]
    exact hx
  have hdropne : L.drop i ≠ [] := by
    apply List.ne_nil_of_length_pos
    omega
  obtain ⟨u, rest, hur⟩ : ∃ u rest, L.drop i = u :: rest := by
    cases hd : L.drop i with
    | nil => exact absurd hd hdropne
    | cons u rest => exact ⟨u, rest, rfl⟩
  have hu : L.getD i [] = u := by
    have h0 : (L.drop i).getD 0 [] = L.getD (i + 0) [] := getD_drop' L i 0 []
    rw [hur] at h0
    simpa using h0.symm
  have hulen : u.length = b + 1 := hfull2 u (by rw [hur]; simp)
  have hune : u ≠ [] := List.ne_nil_of_length_pos (by omega)
  have hrest_ne : ∀ x ∈ rest, x ≠ [] := by
    intro x hx
    have hxl := hfull2 x (by rw [hur]; simp [hx])
    exact List.ne_nil_of_length_pos (by omega)
  obtain ⟨tl, hshift, hmap⟩ := shiftSeg_spec u rest [] hune hrest_ne
  have hrestmap : rest.map List.length = List.replicate rest.length (b + 1) :=
    map_length_replicate rest (b + 1) (fun x hx => hfull2 x (by rw [hur]; simp [hx]))
  have happ : applySeg (L ++ [[]]) i L.length shiftSeg = L.take i ++ (u.dropLast :: tl) := by
    rw [applySeg]
    rw [List.take_append_of_le_length (by omega)]
    rw [List.drop_append_of_le_length (by omega)]
    have h1 : ((L.drop i ++ [[]]).take (L.length + 1 - i) : List (List T)) = L.drop i ++ [[]] := by
      apply List.take_of_length_le
      simp
      omega
    rw [h1]
    have h2 : ((L ++ [[]]).drop (L.length + 1) : List (List T)) = [] := by
      apply List.drop_eq_nil_of_le
      simp
    rw [h2, hur]
    rw [show ((u :: rest) ++ [[]] : List (List T)) = u :: rest ++ [[]] from by simp]
    rw [hshift]
    simp
  have hlen_take : (L.take i).length = i := by
    rw [List.length_take]
    omega
  have hgd : (L.take i ++ (u.dropLast :: tl)).getD i [] = u.dropLast :=
    getD_append_at' _ _ _ _ i hlen_take
  have hset : (L.take i ++ (u.dropLast :: tl)).set i (u.dropLast.insertIdx off v) =
      L.take i ++ (u.dropLast.insertIdx off v :: tl) := set_append_len' _ _ _ _ i hlen_take
  rw [happ, hgd, hset]
  have hoffle : off ≤ u.dropLast.length := by
    rw [List.length_dropLast, hulen]
    rw [hu] at hoff
    omega
  have hu'len : (u.dropLast.insertIdx off v).length = b + 1 := by
    rw [length_insertIdx_of_le off _ v hoffle, List.length_dropLast, hulen]
    omega
  have htlne : tl ≠ [] := by
    intro h0
    rw [h0] at hmap
    simp at hmap
  have htl_mem : ∀ x ∈ tl, x.length = b + 1 ∨ x.length = 1 := by
    intro x hx
    have hmem : x.length ∈ tl.map List.length := List.mem_map_of_mem _ hx
    rw [hmap, hrestmap] at hmem
    rcases List.mem_append.mp hmem with h1 | h2
    · exact Or.inl (List.eq_of_mem_replicate h1)
    · simp at h2
      omega
  have htl_drop : ∀ x ∈ tl.dropLast, x.length = b + 1 := by
    intro x hx
    have hmem : x.length ∈ tl.dropLast.map List.length := List.mem_map_of_mem _ hx
    rw [dropLast_map_length, hmap, hrestmap, List.dropLast_concat] at hmem
    exact List.eq_of_mem_replicate hmem
  have htl_last : (tl.getLastD []).length = 1 := by
    rw [length_getLastD_map tl htlne, hmap]
    rw [getLastD_append _ _ _ (by simp)]
    simp
  have htake_mem : ∀ x ∈ L.take i, x ∈ L.dropLast :=
    fun x hx => mem_take_of_mem_dropLast L i hi x hx
  apply invB_mk
  · exact hb
  · have hsum_rest : sumLen rest = rest.length * (b + 1) := by
      rw [sumLen, hrestmap, sum_replicate_nat]
    have hsum_tl : sumLen tl = rest.length * (b + 1) + 1 := by
      rw [sumLen, hmap, hrestmap, List.sum_append, sum_replicate_nat]
      simp
    have hdecomp : sumLen L = sumLen (L.take i) + sumLen (L.drop i) := by
      conv_lhs => rw [← List.take_append_drop i L]
      rw [sumLen_append]
    rw [sumLen_append, sumLen_cons, hu'len, hsum_tl, hdecomp, hur, sumLen_cons, hulen,
      hsum_rest]
    omega
  · intro blk hblk
    rw [dropLast_append_ne _ _ (by simp)] at hblk
    rw [dropLast_cons_ne _ _ htlne] at hblk
    rcases List.mem_append.mp hblk with h1 | h2
    · exact hint blk (htake_mem blk h1)
    · rcases List.mem_cons.mp h2 with rfl | h3
      · rw [hu'len]
        omega
      · have := htl_drop blk h3
        omega
  · intro blk hblk
    rcases List.mem_append.mp hblk with h1 | h2
    · exact hall blk (List.take_subset i L h1)
    · rcases List.mem_cons.mp h2 with rfl | h3
      · rw [hu'len]
      · rcases htl_mem blk h3 with h | h
        · omega
        · omega
  · intro _
    rw [getLastD_append _ _ _ (by simp), List.getLastD_cons, getLastD_irrel tl htlne _ []]
    omega

/-- The Spread insert scenario preserves the invariant: after exactly
blockSize steps over full nodes a fresh empty node is linked before the
stop node and the backward pass leaves b + 1 nodes of exactly b elements,
then the element lands at its offset in the target node. -/
theorem insert_spread_inv {T : Type} [Inhabited T] (b i off : Nat) (L : List (List T)) (v : T)
    (hb : 3 ≤ b) (hi : i < L.length) (hoff : off < (L.getD i []).length)
    (hint : ∀ blk ∈ L.dropLast, b - 1 ≤ blk.length ∧ blk.length ≤ b + 1)
    (hall : ∀ blk ∈ L, blk.length ≤ b + 1)
    (hlast : L ≠ [] → 1 ≤ (L.getLastD []).length)
    (hNE : i + walkSteps (b + 1) b (L.drop i) ≠ L.length)
    (hw : walkSteps (b + 1) b (L.drop i) = b) :
    InvB (⟨(applySeg (L.insertIdx (i + b) []) i (i + b) (spreadSeg b)).set i
        (((applySeg (L.insertIdx (i + b) []) i (i + b) (spreadSeg b)).getD i []).insertIdx off v),
      sumLen L + 1, b⟩ : BlockyLinkedList T) := by
  have hwle := walkSteps_le (b + 1) b (L.drop i)
  have hseglen : (L.drop i).length = L.length - i := List.length_drop i L
  have hroom : i + b < L.length := by omega
  have hFs_all : ∀ x ∈ (L.drop i).take b, x.length = b + 1 := by
    intro x hx
    apply walkSteps_take (b + 1) b (L.drop i) x
    rw [hw]
    exact hx
  have hFs_len : ((L.drop i).take b).length = b := by
    rw [List.length_take]
    omega
  obtain ⟨hmap, hflat⟩ := spreadSeg_spec b ((L.drop i).take b) hFs_all hFs_len
  have hseg_len : (spreadSeg b ((L.drop i).take b ++ [[]])).length = b + 1 := by
    have := congrArg List.length hmap
    simpa using this
  obtain ⟨h0, tl', hseg0⟩ :
      ∃ h0 tl', spreadSeg b ((L.drop i).take b ++ [[]]) = h0 :: tl' := by
    cases hsg : spreadSeg b ((L.drop i).take b ++ [[]]) with
    | nil =>
      rw [hsg] at hseg_len
      simp at hseg_len
    | cons h0 tl' => exact ⟨h0, tl', rfl⟩
  have hmap2 : h0.length :: tl'.map List.length = b :: List.replicate b b := by
    rw [← List.map_cons, ← hseg0, hmap, List.replicate_succ]
  have hh0 : h0.length = b := (List.cons.injEq _ _ _ _ ▸ hmap2).1
  have htl'map : tl'.map List.length = List.replicate b b := (List.cons.injEq _ _ _ _ ▸ hmap2).2
  have hX : L.insertIdx (i + b) [] = L.take (i + b) ++ [] :: L.drop (i + b) :=
    insertIdx_decomp (i + b) L [] (by omega)
  have hlen_takeib : (L.take (i + b)).length = i + b := by
    rw [List.length_take]
    omega
  have happ : applySeg (L.insertIdx (i + b) []) i (i + b) (spreadSeg b) =
      L.take i ++ spreadSeg b ((L.drop i).take b ++ [[]]) ++ L.drop (i + b) := by
    rw [applySeg, hX]
    have e1 : ((L.take (i + b) ++ [] :: L.drop (i + b)).take i : List (List T)) = L.take i := by
      rw [List.take_append_of_le_length (by omega), List.take_take]
      rw [show min i (i + b) = i from by omega]
    have e2 : ((L.take (i + b) ++ [] :: L.drop (i + b)).drop i : List (List T)) =
        (L.drop i).take b ++ [] :: L.drop (i + b) := by
      rw [List.drop_append_of_le_length (by omega), List.drop_take]
      rw [show i + b - i = b from by omega]
    have e3 : (((L.drop i).take b ++ [] :: L.drop (i + b)).take (i + b + 1 - i) :
        List (List T)) = (L.drop i).take b ++ [[]] := by
      rw [show i + b + 1 - i = ((L.drop i).take b).length + 1 from by omega]
      rw [List.take_append]
      simp
    have e4 : ((L.take (i + b) ++ [] :: L.drop (i + b)).drop (i + b + 1) : List (List T)) =
        L.drop (i + b) := by
      rw [show i + b + 1 = (L.take (i + b)).length + 1 from by omega]
      rw [List.drop_append]
      simp
    rw [e1, e2, e3, e4]
  have hlen_take : (L.take i).length = i := by
    rw [List.length_take]
    omega
  have hassoc : L.take i ++ (h0 :: tl') ++ L.drop (i + b) =
      L.take i ++ (h0 :: (tl' ++ L.drop (i + b))) := by
    simp
  rw [happ, hseg0, hassoc]
  rw [getD_append_at' _ _ _ _ i hlen_take, set_append_len' _ _ _ _ i hlen_take]
  have hoffb : off ≤ b := by
    have h1 : L.getD i [] = ((L.drop i).take b).getD 0 [] := by
      rw [getD_take' _ _ _ _ (by omega), getD_drop']
      rw [show i + 0 = i from by omega]
    obtain ⟨f0, Fs', hF0⟩ : ∃ f0 Fs', (L.drop i).take b = f0 :: Fs' := by
      cases hf : (L.drop i).take b with
      | nil =>
        rw [hf] at hFs_len
        simp at hFs_len
        omega
      | cons f0 Fs' => exact ⟨f0, Fs', rfl⟩
    have hf0len : f0.length = b + 1 := hFs_all f0 (by rw [hF0]; simp)
    rw [h1, hF0] at hoff
    simp only [List.getD_cons_zero] at hoff
    omega
  have hu'len : (h0.insertIdx off v).length = b + 1 := by
    rw [length_insertIdx_of_le off _ v (by omega), hh0]
  have htl'_mem : ∀ x ∈ tl', x.length = b := by
    intro x hx
    have hmem : x.length ∈ tl'.map List.length := List.mem_map_of_mem _ hx
    rw [htl'map] at hmem
    exact List.eq_of_mem_replicate hmem
  have hDne : L.drop (i + b) ≠ [] := by
    apply List.ne_nil_of_length_pos
    rw [List.length_drop]
    omega
  have htake_mem : ∀ x ∈ L.take i, x ∈ L.dropLast :=
    fun x hx => mem_take_of_mem_dropLast L i hi x hx
  apply invB_mk
  · exact hb
  · have hsum_Fs : sumLen ((L.drop i).take b) = b * (b + 1) := by
      rw [sumLen, map_length_replicate _ (b + 1) hFs_all, hFs_len, sum_replicate_nat]
    have hsum_tl : sumLen tl' = b * b := by
      rw [sumLen, htl'map, sum_replicate_nat]
    have hdecomp : sumLen L =
        sumLen (L.take i) + (sumLen ((L.drop i).take b) + sumLen (L.drop (i + b))) := by
      conv_lhs => rw [← List.take_append_drop i L]
      rw [sumLen_append]
      congr 1
      conv_lhs => rw [← List.take_append_drop b (L.drop i)]
      rw [sumLen_append, List.drop_drop]
    rw [sumLen_append, sumLen_cons, sumLen_append, hu'len, hsum_tl, hdecomp, hsum_Fs]
    have hprod : b * (b + 1) = b * b + b := by ring
    omega
  · intro blk hblk
    rw [dropLast_append_ne _ _ (by simp)] at hblk
    rw [dropLast_cons_ne _ _ (by simp [hDne])] at hblk
    rw [dropLast_append_ne _ _ hDne] at hblk
    rcases List.mem_append.mp hblk with h1 | h2
    · exact hint blk (htake_mem blk h1)
    · rcases List.mem_cons.mp h2 with rfl | h3
      · rw [hu'len]
        omega
      · rcases List.mem_append.mp h3 with h4 | h5
        · have := htl'_mem blk h4
          omega
        · exact hint blk (dropLast_drop_subset (i + b) L blk h5)
  · intro blk hblk
    rcases List.mem_append.mp hblk with h1 | h2
    · exact hall blk (List.take_subset i L h1)
    · rcases List.mem_cons.mp h2 with rfl | h3
      · rw [hu'len]
      · rcases List.mem_append.mp h3 with h4 | h5
        · have := htl'_mem blk h4
          omega
        · exact hall blk (List.drop_subset (i + b) L h5)
  · intro _
    rw [getLastD_append _ _ _ (by simp), List.getLastD_cons,
      getLastD_irrel _ (by simp [hDne]) _ ([] : List T)]
    rw [getLastD_append _ _ _ hDne]
    have hLne : L ≠ [] := List.ne_nil_of_length_pos (by omega)
    have hLdec : L = L.take (i + b) ++ L.drop (i + b) := (List.take_append_drop _ _).symm
    have : (L.drop (i + b)).getLastD [] = L.getLastD [] := by
      conv_rhs => rw [hLdec]
      rw [getLastD_append _ _ _ hDne]
    rw [this]
    exact hlast hLne

/-- The Shift insert scenario preserves the invariant: the walk stops
inside the chain before blockSize steps, the gap propagates back from the
stop node to the target node, and the element lands at its offset (the
zero-step walk is the plain local insert). -/
theorem insert_shift_inv {T : Type} [Inhabited T] (b i off : Nat) (L : List (List T)) (v : T)
    (hb : 3 ≤ b) (hi : i < L.length) (hoff : off < (L.getD i []).length)
    (hint : ∀ blk ∈ L.dropLast, b - 1 ≤ blk.length ∧ blk.length ≤ b + 1)
    (hall : ∀ blk ∈ L, blk.length ≤ b + 1)
    (hlast : L ≠ [] → 1 ≤ (L.getLastD []).length)
    (hNE : i + walkSteps (b + 1) b (L.drop i) ≠ L.length)
    (hNB : walkSteps (b + 1) b (L.drop i) ≠ b) :
    InvB (⟨(applySeg L i (i + walkSteps (b + 1) b (L.drop i)) shiftSeg).set i
        (((applySeg L i (i + walkSteps (b + 1) b (L.drop i)) shiftSeg).getD i []).insertIdx
          off v),
      sumLen L + 1, b⟩ : BlockyLinkedList T) := by
  obtain ⟨w, hwdef⟩ : ∃ w, walkSteps (b + 1) b (L.drop i) = w := ⟨_, rfl⟩
  have hwle := walkSteps_le (b + 1) b (L.drop i)
  have hfullw := walkSteps_take (b + 1) b (L.drop i)
  have hstop := walkSteps_stop (b + 1) b (L.drop i)
  rw [hwdef] at hwle hfullw hstop hNE hNB ⊢
  have hseglen : (L.drop i).length = L.length - i := List.length_drop i L
  have hwb : w < b := by omega
  have hwseg : w < (L.drop i).length := by omega
  have hstop2 : ((L.drop i).getD w []).length ≠ b + 1 := hstop (by omega) (by omega)
  have hSlen : ((L.drop i).take (w + 1)).length = w + 1 := by
    rw [List.length_take]
    omega
  obtain ⟨u, rest4, hur⟩ : ∃ u rest4, (L.drop i).take (w + 1) = u :: rest4 := by
    cases hs : (L.drop i).take (w + 1) with
    | nil =>
      rw [hs] at hSlen
      simp at hSlen
    | cons a t => exact ⟨a, t, rfl⟩
  have hrest4len : rest4.length = w := by
    have h0 := hSlen
    rw [hur] at h0
    simpa using h0
  have hdg0 : (L.drop i).getD 0 [] = u := by
    rw [← getD_take' (L.drop i) (w + 1) 0 ([] : List T) (by omega), hur]
    rfl
  have hu : L.getD i [] = u := by
    have h1 := getD_drop' L i 0 ([] : List T)
    rw [Nat.add_zero] at h1
    rw [← h1, hdg0]
  have hlen_take : (L.take i).length = i := by
    rw [List.length_take]
    omega
  have htake_mem : ∀ x ∈ L.take i, x ∈ L.dropLast :=
    fun x hx => mem_take_of_mem_dropLast L i hi x hx
  have happ : applySeg L i (i + w) shiftSeg =
      L.take i ++ shiftSeg ((L.drop i).take (w + 1)) ++ L.drop (i + w + 1) := by
    rw [applySeg, show i + w + 1 - i = w + 1 from by omega]
  have hudrop : L.drop i = u :: L.drop (i + 1) := by
    cases hd2 : L.drop i with
    | nil =>
      rw [hd2] at hur
      simp at hur
    | cons a t =>
      rw [hd2] at hur
      have ha : a = u := by
        have h4 := congrArg (fun l => List.getD l 0 ([] : List T)) hur
        simpa using h4
      have ht : t = L.drop (i + 1) := by
        have h3 : (L.drop i).drop 1 = L.drop (i + 1) := by
          rw [List.drop_drop]
          try rw [show 1 + i = i + 1 from by omega]
        rw [hd2] at h3
        simpa using h3
      rw [ha, ht]
  by_cases hw0 : w = 0
  · -- zero steps: local insert into the target node
    subst hw0
    have hrest40 : rest4 = [] := List.length_eq_zero.mp (by omega)
    subst hrest40
    have hss : shiftSeg ((L.drop i).take (0 + 1)) = [u] := by
      rw [hur]
      simp [shiftSeg]
    have happ0 : applySeg L i (i + 0) shiftSeg = L.take i ++ (u :: L.drop (i + 1)) := by
      rw [happ, hss, show i + 0 + 1 = i + 1 from by omega]
      simp
    rw [happ0, getD_append_at' _ _ _ _ i hlen_take, set_append_len' _ _ _ _ i hlen_take]
    have hub : u.length ≤ b := by
      have hmem : u ∈ L := List.drop_subset i L (by rw [hudrop]; simp)
      have h2 := hall u hmem
      rw [hdg0] at hstop2
      omega
    have hoffu : off < u.length := by
      rw [hu] at hoff
      exact hoff
    have hulen' : (u.insertIdx off v).length = u.length + 1 :=
      length_insertIdx_of_le off u v (by omega)
    have hLdec : L = L.take i ++ (u :: L.drop (i + 1)) := by
      conv_lhs => rw [← List.take_append_drop i L]
      rw [hudrop]
    apply invB_mk
    · exact hb
    · conv_lhs => rw [hLdec]
      simp only [sumLen_append, sumLen_cons]
      rw [hulen']
      omega
    · intro blk hblk
      by_cases hD1 : L.drop (i + 1) = []
      · rw [hD1] at hblk
        simp only [List.dropLast_concat] at hblk
        exact hint blk (htake_mem blk hblk)
      · rw [dropLast_append_ne _ _ (by simp), dropLast_cons_ne _ _ hD1] at hblk
        rcases List.mem_append.mp hblk with h1 | h2
        · exact hint blk (htake_mem blk h1)
        · rcases List.mem_cons.mp h2 with rfl | h3
          · have huin : u ∈ L.dropLast := by
              have hLd : L.dropLast = L.take i ++ (u :: (L.drop (i + 1)).dropLast) := by
                conv_lhs => rw [hLdec]
                rw [dropLast_append_ne _ _ (by simp), dropLast_cons_ne _ _ hD1]
              rw [hLd]
              simp
            have := hint u huin
            rw [hulen']
            omega
          · exact hint blk (dropLast_drop_subset (i + 1) L blk h3)
    · intro blk hblk
      rcases List.mem_append.mp hblk with h1 | h2
      · exact hall blk (List.take_subset i L h1)
      · rcases List.mem_cons.mp h2 with rfl | h3
        · rw [hulen']
          omega
        · exact hall blk (List.drop_subset (i + 1) L h3)
    · intro _
      by_cases hD1 : L.drop (i + 1) = []
      · rw [hD1, getLastD_append _ _ _ (by simp), List.getLastD_cons, List.getLastD_nil,
          hulen']
        omega
      · rw [getLastD_append _ _ _ (by simp), List.getLastD_cons,
          getLastD_irrel _ hD1 _ ([] : List T)]
        have hLlast : (L.drop (i + 1)).getLastD [] = L.getLastD [] := by
          conv_rhs => rw [hLdec]
          rw [getLastD_append _ _ _ (by simp), List.getLastD_cons]
          exact getLastD_irrel _ hD1 _ _
        rw [hLlast]
        exact hlast (List.ne_nil_of_length_pos (by omega))
  · -- at least one step: the gap walks back over full nodes
    obtain ⟨w2, rfl⟩ : ∃ w2, w = w2 + 1 := ⟨w - 1, by omega⟩
    have hrest4ne : rest4 ≠ [] := List.ne_nil_of_length_pos (by omega)
    have hSw : ((L.drop i).take (w2 + 1 + 1)).take (w2 + 1) = (L.drop i).take (w2 + 1) := by
      rw [List.take_take, show min (w2 + 1) (w2 + 1 + 1) = w2 + 1 from by omega]
    have hufull : u.length = b + 1 := by
      apply hfullw
      rw [← hSw, hur]
      simp
    have hune : u ≠ [] := List.ne_nil_of_length_pos (by omega)
    have hmidsfull : ∀ x ∈ rest4.dropLast, x.length = b + 1 := by
      intro x hx
      apply hfullw
      rw [← hSw, hur]
      rw [List.dropLast_eq_take, hrest4len, show w2 + 1 - 1 = w2 from by omega] at hx
      simp only [List.take_succ_cons]
      exact List.mem_cons_of_mem _ hx
    have hmidsne : ∀ x ∈ rest4.dropLast, x ≠ [] :=
      fun x hx => List.ne_nil_of_length_pos (by have := hmidsfull x hx; omega)
    have hmidslen : rest4.dropLast.length = w2 := by
      rw [List.length_dropLast, hrest4len]
      omega
    have hlastb_eq : (L.drop i).getD (w2 + 1) [] = rest4.getLastD [] := by
      rw [← getD_take' (L.drop i) (w2 + 1 + 1) (w2 + 1) ([] : List T) (by omega), hur]
      rw [show (u :: rest4 : List (List T)) =
          (u :: rest4.dropLast) ++ rest4.getLastD [] :: [] from by
        simp only [List.cons_append]
        rw [show (rest4.dropLast ++ rest4.getLastD [] :: [] : List (List T)) =
            rest4.dropLast ++ [rest4.getLastD []] from rfl]
        rw [dropLast_append_getLastD rest4 [] hrest4ne]]
      exact getD_append_at' _ _ _ _ _ (by simp [hmidslen])
    have hlastb_ne : (rest4.getLastD []).length ≠ b + 1 := by
      rw [← hlastb_eq]
      exact hstop2
    have hlastb_le : (rest4.getLastD []).length ≤ b := by
      have hmem : rest4.getLastD [] ∈ L := by
        apply List.drop_subset i L
        apply List.take_subset (w2 + 1 + 1) (L.drop i)
        rw [hur]
        exact List.mem_cons_of_mem u (getLastD_mem rest4 [] hrest4ne)
      have := hall _ hmem
      omega
    obtain ⟨tl, hshift, hmap⟩ :=
      shiftSeg_spec u rest4.dropLast (rest4.getLastD []) hune hmidsne
    have hshift2 : shiftSeg ((L.drop i).take (w2 + 1 + 1)) = u.dropLast :: tl := by
      rw [hur, show (u :: rest4 : List (List T)) =
          u :: rest4.dropLast ++ [rest4.getLastD []] from by
        simp only [List.cons_append]
        rw [dropLast_append_getLastD rest4 [] hrest4ne]]
      exact hshift
    have hmidsmap : rest4.dropLast.map List.length = List.replicate w2 (b + 1) := by
      have h5 := map_length_replicate rest4.dropLast (b + 1) hmidsfull
      rwa [hmidslen] at h5
    have htlne : tl ≠ [] := by
      intro h0
      rw [h0] at hmap
      simp at hmap
    have htl_mem : ∀ x ∈ tl, x.length = b + 1 ∨ x.length = (rest4.getLastD []).length + 1 := by
      intro x hx
      have hmem : x.length ∈ tl.map List.length := List.mem_map_of_mem _ hx
      rw [hmap, hmidsmap] at hmem
      rcases List.mem_append.mp hmem with h1 | h2
      · exact Or.inl (List.eq_of_mem_replicate h1)
      · simp only [List.mem_singleton] at h2
        exact Or.inr h2
    have htl_drop : ∀ x ∈ tl.dropLast, x.length = b + 1 := by
      intro x hx
      have hmem : x.length ∈ tl.dropLast.map List.length := List.mem_map_of_mem _ hx
      rw [dropLast_map_length, hmap, hmidsmap, List.dropLast_concat] at hmem
      exact List.eq_of_mem_replicate hmem
    have htl_last : (tl.getLastD []).length = (rest4.getLastD []).length + 1 := by
      rw [length_getLastD_map tl htlne, hmap, getLastD_append _ _ _ (by simp)]
      simp
    have happ2 : applySeg L i (i + (w2 + 1)) shiftSeg =
        L.take i ++ (u.dropLast :: (tl ++ L.drop (i + (w2 + 1) + 1))) := by
      rw [happ, hshift2]
      simp
    rw [happ2, getD_append_at' _ _ _ _ i hlen_take, set_append_len' _ _ _ _ i hlen_take]
    have hoffle : off ≤ u.dropLast.length := by
      rw [List.length_dropLast, hufull]
      rw [hu] at hoff
      omega
    have hu'len : (u.dropLast.insertIdx off v).length = b + 1 := by
      rw [length_insertIdx_of_le off _ v hoffle, List.length_dropLast, hufull]
      omega
    have hLdec : L =
        L.take i ++ ((L.drop i).take (w2 + 1 + 1) ++ L.drop (i + (w2 + 1) + 1)) := by
      conv_lhs => rw [← List.take_append_drop i L]
      congr 1
      conv_lhs => rw [← List.take_append_drop (w2 + 1 + 1) (L.drop i)]
      congr 1
      rw [List.drop_drop]
      try rw [show i + (w2 + 1 + 1) = i + (w2 + 1) + 1 from by omega]
      try rw [show w2 + 1 + 1 + i = i + (w2 + 1) + 1 from by omega]
    have hsum_mids : sumLen rest4.dropLast = w2 * (b + 1) := by
      rw [sumLen, hmidsmap, sum_replicate_nat]
    have hsum_tl : sumLen tl = w2 * (b + 1) + ((rest4.getLastD []).length + 1) := by
      rw [sumLen, hmap, hmidsmap, List.sum_append, sum_replicate_nat]
      simp
    have hsum_S : sumLen ((L.drop i).take (w2 + 1 + 1)) =
        (b + 1) + (w2 * (b + 1) + (rest4.getLastD []).length) := by
      rw [hur, sumLen_cons, hufull, sumLen_split_last rest4 hrest4ne, hsum_mids]
    apply invB_mk
    · exact hb
    · conv_lhs => rw [hLdec]
      simp only [sumLen_append, sumLen_cons]
      rw [hu'len, hsum_tl, hsum_S]
      omega
    · intro blk hblk
      by_cases hD2 : L.drop (i + (w2 + 1) + 1) = []
      · rw [hD2, List.append_nil] at hblk
        rw [dropLast_append_ne _ _ (by simp), dropLast_cons_ne _ _ htlne] at hblk
        rcases List.mem_append.mp hblk with h1 | h2
        · exact hint blk (htake_mem blk h1)
        · rcases List.mem_cons.mp h2 with rfl | h3
          · rw [hu'len]
            omega
          · have := htl_drop blk h3
            omega
      · have htlD2 : tl ++ L.drop (i + (w2 + 1) + 1) ≠ [] := by simp [htlne]
        rw [dropLast_append_ne _ _ (by simp), dropLast_cons_ne _ _ htlD2,
          dropLast_append_ne _ _ hD2] at hblk
        have hlastb_ge : b - 1 ≤ (rest4.getLastD []).length := by
          have hmem : rest4.getLastD [] ∈ L.dropLast := by
            have hLd : L.dropLast = L.take i ++ ((L.drop i).take (w2 + 1 + 1) ++
                (L.drop (i + (w2 + 1) + 1)).dropLast) := by
              conv_lhs => rw [hLdec]
              rw [dropLast_append_ne _ _ (by simp [hD2]), dropLast_append_ne _ _ hD2]
            rw [hLd]
            apply List.mem_append.mpr
            right
            apply List.mem_append.mpr
            left
            rw [hur]
            exact List.mem_cons_of_mem u (getLastD_mem rest4 [] hrest4ne)
          exact (hint _ hmem).1
        rcases List.mem_append.mp hblk with h1 | h2
        · exact hint blk (htake_mem blk h1)
        · rcases List.mem_cons.mp h2 with rfl | h3
          · rw [hu'len]
            omega
          · rcases List.mem_append.mp h3 with h4 | h5
            · rcases htl_mem blk h4 with h | h
              · omega
              · rw [h]
                omega
            · exact hint blk (dropLast_drop_subset (i + (w2 + 1) + 1) L blk h5)
    · intro blk hblk
      rcases List.mem_append.mp hblk with h1 | h2
      · exact hall blk (List.take_subset i L h1)
      · rcases List.mem_cons.mp h2 with rfl | h3
        · rw [hu'len]
        · rcases List.mem_append.mp h3 with h4 | h5
          · rcases htl_mem blk h4 with h | h
            · omega
            · rw [h]
              omega
          · exact hall blk (List.drop_subset _ L h5)
    · intro _
      by_cases hD2 : L.drop (i + (w2 + 1) + 1) = []
      · rw [hD2, List.append_nil, getLastD_append _ _ _ (by simp), List.getLastD_cons,
          getLastD_irrel _ htlne _ ([] : List T), htl_last]
        omega
      · have htlD2 : tl ++ L.drop (i + (w2 + 1) + 1) ≠ [] := by simp [htlne]
        rw [getLastD_append _ _ _ (by simp), List.getLastD_cons,
          getLastD_irrel _ htlD2 _ ([] : List T), getLastD_append _ _ _ hD2]
        have hLlast : (L.drop (i + (w2 + 1) + 1)).getLastD [] = L.getLastD [] := by
          conv_rhs => rw [hLdec]
          rw [getLastD_append _ _ _ (by simp [hD2]), getLastD_append _ _ _ hD2]
        rw [hLlast]
        exact hlast (List.ne_nil_of_length_pos (by omega))

/-- insert preserves the chain invariant and the block-size parameter. -/
theorem insertBLL_inv {T : Type} [Inhabited T] (s : BlockyLinkedList T) (pos : Nat) (v : T)
    (hinv : InvB s) (s' : BlockyLinkedList T) (h : insertBLL s pos v = .ok s') :
    InvB s' ∧ s'.blockSize = s.blockSize := by
  obtain ⟨hb, hsz, hint, hall, hlast⟩ := hinv
  rw [insertBLL] at h
  by_cases hfast : pos = s.size ∨ (s.size = 0 ∧ pos = 0)
  · rw [if_pos hfast] at h
    simp only [Except.ok.injEq] at h
    subst h
    exact pushBackBLL_inv s v ⟨hb, hsz, hint, hall, hlast⟩
  · rw [if_neg hfast] at h
    cases hloc : locateB s pos with
    | error e =>
      rw [hloc] at h
      simp at h
    | ok io =>
      obtain ⟨i, off⟩ := io
      simp only [hloc] at h
      obtain ⟨hpos, hi, hoff, hsum⟩ := locateB_ok s pos i off hsz hloc
      by_cases hEnd : i + walkSteps (s.blockSize + 1) s.blockSize (s.blocks.drop i) =
          s.blocks.length
      · rw [if_pos hEnd] at h
        simp only [Except.ok.injEq] at h
        subst h
        refine ⟨?_, rfl⟩
        have hcore := insert_end_inv s.blockSize i off s.blocks v hb hi hoff hint hall hEnd
        rw [hsz]
        exact hcore
      · rw [if_neg hEnd] at h
        by_cases hSpr : walkSteps (s.blockSize + 1) s.blockSize (s.blocks.drop i) =
            s.blockSize
        · rw [if_pos hSpr] at h
          simp only [Except.ok.injEq] at h
          subst h
          refine ⟨?_, rfl⟩
          have hcore := insert_spread_inv s.blockSize i off s.blocks v hb hi hoff hint hall
            hlast hEnd hSpr
          rw [hsz]
          exact hcore
        · rw [if_neg hSpr] at h
          simp only [Except.ok.injEq] at h
          subst h
          refine ⟨?_, rfl⟩
          have hcore := insert_shift_inv s.blockSize i off s.blocks v hb hi hoff hint hall
            hlast hEnd hSpr
          rw [hsz]
          exact hcore

theorem take_append_len {α : Type} (P R : List α) (n : Nat) (h : P.length = n) :
    (P ++ R).take n = P := by
  subst h
  exact List.take_left P R

theorem drop_append_len {α : Type} (P R : List α) (n : Nat) (h : P.length = n) :
    (P ++ R).drop n = R := by
  subst h
  exact List.drop_left P R

/-- remove preserves the chain invariant and the block-size parameter. -/
theorem removeBLL_inv {T : Type} [Inhabited T] (s : BlockyLinkedList T) (pos : Nat)
    (hinv : InvB s) (x : T) (s' : BlockyLinkedList T) (h : removeBLL s pos = .ok (x, s')) :
    InvB s' ∧ s'.blockSize = s.blockSize := by
  obtain ⟨hb, hsz, hint, hall, hlast⟩ := hinv
  rw [removeBLL] at h
  cases hloc : locateB s pos with
  | error e =>
    rw [hloc] at h
    simp at h
  | ok io =>
    obtain ⟨i, off⟩ := io
    simp only [hloc] at h
    obtain ⟨hpos, hi, hoff, hsum⟩ := locateB_ok s pos i off hsz hloc
    have hlen_take : (s.blocks.take i).length = i := by
      rw [List.length_take]
      omega
    by_cases hG : i + walkSteps (s.blockSize - 1) s.blockSize (s.blocks.drop i) ≠
        s.blocks.length ∧
        walkSteps (s.blockSize - 1) s.blockSize (s.blocks.drop i) = s.blockSize
    · -- gather scenario
      rw [if_pos hG] at h
      obtain ⟨hGne, hGw⟩ := hG
      have hwle := walkSteps_le (s.blockSize - 1) s.blockSize (s.blocks.drop i)
      have hfullw := walkSteps_take (s.blockSize - 1) s.blockSize (s.blocks.drop i)
      rw [hGw] at hwle hfullw hGne
      have hseglen : (s.blocks.drop i).length = s.blocks.length - i :=
        List.length_drop i s.blocks
      have hib : i + s.blockSize < s.blocks.length := by omega
      have htb_len : ((s.blocks.drop i).take s.blockSize).length = s.blockSize := by
        rw [List.length_take]
        omega
      obtain ⟨c, us, hcu⟩ : ∃ c us, (s.blocks.drop i).take s.blockSize = c :: us := by
        cases hs2 : (s.blocks.drop i).take s.blockSize with
        | nil =>
          rw [hs2] at htb_len
          simp at htb_len
          omega
        | cons a t => exact ⟨a, t, rfl⟩
      have hus_len : us.length = s.blockSize - 1 := by
        have h0 := htb_len
        rw [hcu] at h0
        simp at h0
        omega
      have hc_len : c.length = s.blockSize - 1 := hfullw c (by rw [hcu]; simp)
      have hus_all : ∀ y ∈ us, y.length = s.blockSize - 1 :=
        fun y hy => hfullw y (by rw [hcu]; simp [hy])
      have hseg : s.blocks.drop i = c :: (us ++ s.blocks.drop (i + s.blockSize)) := by
        conv_lhs => rw [← List.take_append_drop s.blockSize (s.blocks.drop i)]
        rw [hcu, List.drop_drop]
        try rw [show s.blockSize + i = i + s.blockSize from by omega]
        simp
      obtain ⟨out, hout1, hout2, hout3, hout4⟩ :=
        gatherSteps_spec s.blockSize (by omega) (s.blockSize - 1) c us
          (s.blocks.drop (i + s.blockSize)) (by omega) hc_len hus_len hus_all
      obtain ⟨o0, out', ho⟩ : ∃ o0 out', out = o0 :: out' := by
        cases ho2 : out with
        | nil =>
          rw [ho2] at hout2
          simp at hout2
          omega
        | cons a t => exact ⟨a, t, rfl⟩
      have ho0len : o0.length = s.blockSize := hout3 o0 (by rw [ho]; simp)
      have hout'_all : ∀ y ∈ out', y.length = s.blockSize :=
        fun y hy => hout3 y (by rw [ho]; simp [hy])
      have hb1 : s.blocks.take i ++
          gatherSteps s.blockSize (s.blockSize - 1) (s.blocks.drop i) =
          s.blocks.take i ++ (o0 :: (out' ++ s.blocks.drop (i + s.blockSize))) := by
        rw [hseg, hout1, ho]
        simp
      rw [hb1, getD_append_at' _ _ _ _ i hlen_take] at h
      have hoffo0 : off < o0.length := by
        have hcgd : s.blocks.getD i [] = c := by
          have h1 := getD_drop' s.blocks i 0 ([] : List T)
          rw [Nat.add_zero] at h1
          rw [← h1, hseg]
          rfl
        rw [hcgd, hc_len] at hoff
        omega
      rw [dif_pos hoffo0, set_append_len' _ _ _ _ i hlen_take,
        take_append_len _ _ i hlen_take, drop_append_len _ _ i hlen_take] at h
      simp only [Except.ok.injEq, Prod.mk.injEq] at h
      obtain ⟨hval, hst⟩ := h
      subst hst
      refine ⟨?_, rfl⟩
      have herase_len : (o0.eraseIdx off).length = s.blockSize - 1 := by
        rw [List.length_eraseIdx_of_lt hoffo0, ho0len]
      have hrest0ne : s.blocks.drop (i + s.blockSize) ≠ [] :=
        List.ne_nil_of_length_pos (by rw [List.length_drop]; omega)
      have hds_int : ∀ d ∈ (out' ++ s.blocks.drop (i + s.blockSize)).dropLast,
          s.blockSize - 1 ≤ d.length ∧ d.length ≤ s.blockSize + 1 := by
        intro d hd
        rw [dropLast_append_ne _ _ hrest0ne] at hd
        rcases List.mem_append.mp hd with h1 | h2
        · have := hout'_all d h1
          omega
        · exact hint d (dropLast_drop_subset (i + s.blockSize) s.blocks d h2)
      have hds_all : ∀ d ∈ out' ++ s.blocks.drop (i + s.blockSize),
          d.length ≤ s.blockSize + 1 := by
        intro d hd
        rcases List.mem_append.mp hd with h1 | h2
        · have := hout'_all d h1
          omega
        · exact hall d (List.drop_subset _ _ h2)
      have hds_last : (out' ++ s.blocks.drop (i + s.blockSize)) ≠ [] →
          1 ≤ ((out' ++ s.blocks.drop (i + s.blockSize)).getLastD []).length := by
        intro _
        rw [getLastD_append _ _ _ hrest0ne]
        have hLl : (s.blocks.drop (i + s.blockSize)).getLastD [] = s.blocks.getLastD [] := by
          conv_rhs => rw [show s.blocks =
            s.blocks.take (i + s.blockSize) ++ s.blocks.drop (i + s.blockSize) from
            (List.take_append_drop _ _).symm]
          rw [getLastD_append _ _ _ hrest0ne]
        rw [hLl]
        exact hlast (List.ne_nil_of_length_pos (by omega))
      rcases cascadeRemove_spec s.blockSize hb (out' ++ s.blocks.drop (i + s.blockSize))
          (o0.eraseIdx off) (fun _ => by omega) (by omega) hds_int hds_all hds_last with
        ⟨hnil, hlen0, hds0⟩ | ⟨hcs, hcdrop, hcall, hcne, hclast⟩
      · exfalso
        rw [herase_len] at hlen0
        omega
      · apply invB_mk
        · exact hb
        · have hsum_take_drop : sumLen s.blocks =
              sumLen (s.blocks.take i) + sumLen (s.blocks.drop i) := by
            conv_lhs => rw [← List.take_append_drop i s.blocks]
            rw [sumLen_append]
          have hsum_seg : sumLen (s.blocks.drop i) =
              c.length + (sumLen us + sumLen (s.blocks.drop (i + s.blockSize))) := by
            rw [hseg]
            simp
          have hsum_out : sumLen out = o0.length + sumLen out' := by
            rw [ho]
            simp
          rw [sumLen_append, hcs, sumLen_append, herase_len, hsz]
          omega
        · intro blk hblk
          rw [dropLast_append_ne _ _ hcne] at hblk
          rcases List.mem_append.mp hblk with h1 | h2
          · exact hint blk (mem_take_of_mem_dropLast s.blocks i hi blk h1)
          · exact hcdrop blk h2
        · intro blk hblk
          rcases List.mem_append.mp hblk with h1 | h2
          · exact hall blk (List.take_subset i s.blocks h1)
          · exact hcall blk h2
        · intro _
          rw [getLastD_append _ _ _ hcne]
          exact hclast
    · -- no gather: plain local remove and cascade
      rw [if_neg hG] at h
      have hudrop : s.blocks.drop i = (s.blocks.getD i []) :: s.blocks.drop (i + 1) := by
        cases hd2 : s.blocks.drop i with
        | nil =>
          have h0 : (s.blocks.drop i).length = 0 := by rw [hd2]; rfl
          rw [List.length_drop] at h0
          omega
        | cons a t =>
          have ha : s.blocks.getD i [] = a := by
            have h1 := getD_drop' s.blocks i 0 ([] : List T)
            rw [Nat.add_zero] at h1
            rw [← h1, hd2]
            rfl
          have ht : t = s.blocks.drop (i + 1) := by
            have h3 : (s.blocks.drop i).drop 1 = s.blocks.drop (i + 1) := by
              rw [List.drop_drop]
              try rw [show 1 + i = i + 1 from by omega]
            rw [hd2] at h3
            simpa using h3
          rw [ha, ht]
      have hLdec : s.blocks =
          s.blocks.take i ++ ((s.blocks.getD i []) :: s.blocks.drop (i + 1)) := by
        conv_lhs => rw [← List.take_append_drop i s.blocks]
        rw [hudrop]
      have hsetgen : ∀ y : List T,
          s.blocks.set i y = s.blocks.take i ++ (y :: s.blocks.drop (i + 1)) := by
        intro y
        conv_lhs => rw [hLdec]
        exact set_append_len' _ _ _ _ i hlen_take
      rw [dif_pos hoff, hsetgen, take_append_len _ _ i hlen_take,
        drop_append_len _ _ i hlen_take] at h
      simp only [Except.ok.injEq, Prod.mk.injEq] at h
      obtain ⟨hval, hst⟩ := h
      subst hst
      refine ⟨?_, rfl⟩
      have herase_len : ((s.blocks.getD i []).eraseIdx off).length =
          (s.blocks.getD i []).length - 1 := List.length_eraseIdx_of_lt hoff
      have hmemu : s.blocks.getD i [] ∈ s.blocks := by
        have h0 : s.blocks.getD i [] ∈ s.blocks.drop i := by
          rw [hudrop]
          simp
        exact List.drop_subset i s.blocks h0
      have hds_int : ∀ d ∈ (s.blocks.drop (i + 1)).dropLast,
          s.blockSize - 1 ≤ d.length ∧ d.length ≤ s.blockSize + 1 :=
        fun d hd => hint d (dropLast_drop_subset (i + 1) s.blocks d hd)
      have hds_all : ∀ d ∈ s.blocks.drop (i + 1), d.length ≤ s.blockSize + 1 :=
        fun d hd => hall d (List.drop_subset _ _ hd)
      have hds_last : s.blocks.drop (i + 1) ≠ [] →
          1 ≤ ((s.blocks.drop (i + 1)).getLastD []).length := by
        intro hne1
        have hLl : (s.blocks.drop (i + 1)).getLastD [] = s.blocks.getLastD [] := by
          conv_rhs => rw [show s.blocks =
            s.blocks.take (i + 1) ++ s.blocks.drop (i + 1) from
            (List.take_append_drop _ _).symm]
          rw [getLastD_append _ _ _ hne1]
        rw [hLl]
        exact hlast (List.ne_nil_of_length_pos (by omega))
      have hc0 : s.blocks.drop (i + 1) ≠ [] →
          s.blockSize - 2 ≤ ((s.blocks.getD i []).eraseIdx off).length := by
        intro hne1
        have hu_mem : s.blocks.getD i [] ∈ s.blocks.dropLast := by
          have hLd : s.blocks.dropLast = s.blocks.take i ++
              ((s.blocks.getD i []) :: (s.blocks.drop (i + 1)).dropLast) := by
            conv_lhs => rw [hLdec]
            rw [dropLast_append_ne _ _ (by simp), dropLast_cons_ne _ _ hne1]
          rw [hLd]
          simp
        have := (hint _ hu_mem).1
        omega
      have hc1 : ((s.blocks.getD i []).eraseIdx off).length ≤ s.blockSize + 1 := by
        have := hall _ hmemu
        omega
      rcases cascadeRemove_spec s.blockSize hb (s.blocks.drop (i + 1))
          ((s.blocks.getD i []).eraseIdx off) hc0 hc1 hds_int hds_all hds_last with
        ⟨hnil, hlen0, hds0⟩ | ⟨hcs, hcdrop, hcall, hcne, hclast⟩
      · -- the only block of the suffix was emptied and unlinked
        rw [hnil]
        have hu1 : (s.blocks.getD i []).length = 1 := by omega
        have hsum2 : sumLen s.blocks = sumLen (s.blocks.take i) + 1 := by
          conv_lhs => rw [hLdec]
          rw [sumLen_append, sumLen_cons, hds0, sumLen_nil, hu1]
        apply invB_mk
        · exact hb
        · rw [List.append_nil, hsz]
          omega
        · intro blk hblk
          rw [List.append_nil] at hblk
          exact hint blk (mem_take_of_mem_dropLast s.blocks i hi blk
            ((List.dropLast_sublist _).subset hblk))
        · intro blk hblk
          rw [List.append_nil] at hblk
          exact hall blk (List.take_subset i s.blocks hblk)
        · intro hne2
          rw [List.append_nil] at hne2 ⊢
          have hmem := getLastD_mem (s.blocks.take i) [] hne2
          have := (hint _ (mem_take_of_mem_dropLast s.blocks i hi _ hmem)).1
          omega
      · apply invB_mk
        · exact hb
        · have hsum2 : sumLen s.blocks = sumLen (s.blocks.take i) +
              ((s.blocks.getD i []).length + sumLen (s.blocks.drop (i + 1))) := by
            conv_lhs => rw [hLdec]
            rw [sumLen_append, sumLen_cons]
          rw [sumLen_append, hcs, hsz]
          omega
        · intro blk hblk
          rw [dropLast_append_ne _ _ hcne] at hblk
          rcases List.mem_append.mp hblk with h1 | h2
          · exact hint blk (mem_take_of_mem_dropLast s.blocks i hi blk h1)
          · exact hcdrop blk h2
        · intro blk hblk
          rcases List.mem_append.mp hblk with h1 | h2
          · exact hall blk (List.take_subset i s.blocks h1)
          · exact hcall blk h2
        · intro _
          rw [getLastD_append _ _ _ hcne]
          exact hclast

/-- Every public mutating call preserves the chain invariant and the
block-size parameter (a call that throws leaves the chain unchanged). -/
theorem applyBlockyOp_inv {T : Type} [Inhabited T] (s : BlockyLinkedList T) (op : BlockyOp T)
    (hinv : InvB s) :
    InvB (applyBlockyOp s op) ∧ (applyBlockyOp s op).blockSize = s.blockSize := by
  cases op with
  | ins pos v =>
    simp only [applyBlockyOp]
    cases hop : insertBLL s pos v with
    | ok s' =>
      simp only [hop]
      exact insertBLL_inv s pos v hinv s' hop
    | error e =>
      simp only [hop]
      exact ⟨hinv, trivial⟩
  | rem pos =>
    simp only [applyBlockyOp]
    cases hop : removeBLL s pos with
    | ok r =>
      simp only [hop]
      exact removeBLL_inv s pos hinv r.1 r.2 (by rw [hop])
    | error e =>
      simp only [hop]
      exact ⟨hinv, trivial⟩
  | pushF v =>
    simp only [applyBlockyOp]
    cases hop : pushFrontBLL s v with
    | ok s' =>
      simp only [hop]
      rw [pushFrontBLL] at hop
      exact insertBLL_inv s 0 v hinv s' hop
    | error e =>
      simp only [hop]
      exact ⟨hinv, trivial⟩
  | pushB v =>
    simp only [applyBlockyOp]
    exact pushBackBLL_inv s v hinv
  | popF =>
    simp only [applyBlockyOp]
    cases hop : popFrontBLL s with
    | ok r =>
      simp only [hop]
      rw [popFrontBLL] at hop
      exact removeBLL_inv s 0 hinv r.1 r.2 (by rw [hop])
    | error e =>
      simp only [hop]
      exact ⟨hinv, trivial⟩
  | popB =>
    simp only [applyBlockyOp]
    cases hop : popBackBLL s with
    | ok r =>
      simp only [hop]
      rw [popBackBLL] at hop
      exact removeBLL_inv s (s.size - 1) hinv r.1 r.2 (by rw [hop])
    | error e =>
      simp only [hop]
      exact ⟨hinv, trivial⟩

theorem applyBlockyOps_inv {T : Type} [Inhabited T] :
    ∀ (ops : List (BlockyOp T)) (s : BlockyLinkedList T), InvB s →
      InvB (applyBlockyOps s ops) ∧ (applyBlockyOps s ops).blockSize = s.blockSize := by
  intro ops
  induction ops with
  | nil =>
    intro s hs
    exact ⟨hs, rfl⟩
  | cons op ops' ih =>
    intro s hs
    have h1 := applyBlockyOp_inv s op hs
    have h2 := ih (applyBlockyOp s op) h1.1
    exact ⟨h2.1, h2.2.trans h1.2⟩

/-- C1: For every BlockyLinkedList with block-size parameter b, after any
sequence of insert/remove/push_front/push_back/pop_front/pop_back calls
starting from the freshly constructed empty chain, every node except
possibly the last holds between b - 1 and b + 1 elements. -/
theorem blocky_interior_block_size_invariant (T : Type) [Inhabited T] (b : Nat)
    (s0 : BlockyLinkedList T) (h0 : blockyNew T b = .ok s0) (ops : List (BlockyOp T)) :
    ∀ blk ∈ (applyBlockyOps s0 ops).blocks.dropLast,
      b - 1 ≤ blk.length ∧ blk.length ≤ b + 1 := by
  have hb : ¬ b < s_minimumBlockSize := by
    by_contra hlt
    rw [blockyNew, if_pos hlt] at h0
    exact absurd h0 (by simp)
  rw [blockyNew, if_neg hb] at h0
  simp only [Except.ok.injEq] at h0
  subst h0
  have hb3 : 3 ≤ b := by
    simp only [s_minimumBlockSize] at hb
    omega
  have hinv0 : InvB (⟨[], 0, b⟩ : BlockyLinkedList T) :=
    invB_mk _ _ _ hb3 rfl (by simp) (by simp) (by simp)
  obtain ⟨hinv, hbs⟩ := applyBlockyOps_inv ops ⟨[], 0, b⟩ hinv0
  intro blk hblk
  have hcl := hinv.2.2.1 blk hblk
  rw [hbs] at hcl
  exact hcl

theorem blocky_interior_block_size_invariant_witness :
    blockyNew Nat 3 = .ok (⟨[], 0, 3⟩ : BlockyLinkedList Nat) ∧
    (∀ blk ∈ (applyBlockyOps (⟨[], 0, 3⟩ : BlockyLinkedList Nat)
        [BlockyOp.pushB 1, BlockyOp.pushB 2, BlockyOp.pushB 3, BlockyOp.pushB 4,
         BlockyOp.pushB 5, BlockyOp.ins 1 9, BlockyOp.ins 2 8, BlockyOp.rem 0,
         BlockyOp.pushF 7, BlockyOp.popB]).blocks.dropLast,
      3 - 1 ≤ blk.length ∧ blk.length ≤ 3 + 1) :=
  ⟨rfl, blocky_interior_block_size_invariant Nat 3 ⟨[], 0, 3⟩ rfl
    [BlockyOp.pushB 1, BlockyOp.pushB 2, BlockyOp.pushB 3, BlockyOp.pushB 4,
     BlockyOp.pushB 5, BlockyOp.ins 1 9, BlockyOp.ins 2 8, BlockyOp.rem 0,
     BlockyOp.pushF 7, BlockyOp.popB]⟩

/-- C7: When insert walks blockSize steps from the target node over nodes
that are all exactly full (blockSize + 1 elements) without reaching the end
of the list, a fresh empty node is linked before the stop node and the
spread pass turns the b full blocks plus the empty node into b + 1 blocks
of exactly b elements each, preserving element order; the insert then
proceeds as a local insert into the target node. -/
theorem blocky_spread_redistribution (T : Type) [Inhabited T] (s : BlockyLinkedList T)
    (pos : Nat) (v : T) (i off : Nat) (hinv : InvB s)
    (hslow : ¬(pos = s.size ∨ (s.size = 0 ∧ pos = 0)))
    (hloc : locateB s pos = .ok (i, off))
    (hfull : ∀ j, j < s.blockSize → (s.blocks.getD (i + j) []).length = s.blockSize + 1)
    (hroom : i + s.blockSize < s.blocks.length) :
    ∃ u' seg,
      insertBLL s pos v = .ok ⟨(s.blocks.take i ++ (u'.insertIdx off v :: seg)) ++
          s.blocks.drop (i + s.blockSize), s.size + 1, s.blockSize⟩ ∧
      (u' :: seg).length = s.blockSize + 1 ∧
      (∀ blk ∈ u' :: seg, blk.length = s.blockSize) ∧
      (u' :: seg).flatten = ((s.blocks.drop i).take s.blockSize).flatten := by
  obtain ⟨hb, hsz, hint, hall, hlast⟩ := hinv
  obtain ⟨hpos, hi, hoff, hsum⟩ := locateB_ok s pos i off hsz hloc
  have hseglen : (s.blocks.drop i).length = s.blocks.length - i := List.length_drop i s.blocks
  have hw : walkSteps (s.blockSize + 1) s.blockSize (s.blocks.drop i) = s.blockSize := by
    apply walkSteps_full
    · omega
    · intro j hj
      rw [getD_drop']
      exact hfull j hj
  have hred : insertBLL s pos v = .ok
      ⟨(applySeg (s.blocks.insertIdx (i + s.blockSize) []) i (i + s.blockSize)
          (spreadSeg s.blockSize)).set i
        (((applySeg (s.blocks.insertIdx (i + s.blockSize) []) i (i + s.blockSize)
          (spreadSeg s.blockSize)).getD i []).insertIdx off v),
        s.size + 1, s.blockSize⟩ := by
    rw [insertBLL, if_neg hslow]
    simp only [hloc]
    rw [hw]
    rw [if_neg (by omega), if_pos rfl]
  have hFs_all : ∀ y ∈ (s.blocks.drop i).take s.blockSize, y.length = s.blockSize + 1 := by
    intro y hy
    have h2 := walkSteps_take (s.blockSize + 1) s.blockSize (s.blocks.drop i) y
    rw [hw] at h2
    exact h2 hy
  have hFs_len : ((s.blocks.drop i).take s.blockSize).length = s.blockSize := by
    rw [List.length_take]
    omega
  obtain ⟨hmap, hflat⟩ :=
    spreadSeg_spec s.blockSize ((s.blocks.drop i).take s.blockSize) hFs_all hFs_len
  have hseg_len : (spreadSeg s.blockSize
      ((s.blocks.drop i).take s.blockSize ++ [[]])).length = s.blockSize + 1 := by
    have h3 := congrArg List.length hmap
    simpa using h3
  obtain ⟨h0, tl', hseg0⟩ : ∃ h0 tl', spreadSeg s.blockSize
      ((s.blocks.drop i).take s.blockSize ++ [[]]) = h0 :: tl' := by
    cases hsg : spreadSeg s.blockSize ((s.blocks.drop i).take s.blockSize ++ [[]]) with
    | nil =>
      rw [hsg] at hseg_len
      simp at hseg_len
    | cons a t => exact ⟨a, t, rfl⟩
  have hmap2 : h0.length :: tl'.map List.length =
      s.blockSize :: List.replicate s.blockSize s.blockSize := by
    rw [← List.map_cons, ← hseg0, hmap, List.replicate_succ]
  have hh0 : h0.length = s.blockSize := (List.cons.injEq _ _ _ _ ▸ hmap2).1
  have htl'map : tl'.map List.length = List.replicate s.blockSize s.blockSize :=
    (List.cons.injEq _ _ _ _ ▸ hmap2).2
  have hX : s.blocks.insertIdx (i + s.blockSize) [] =
      s.blocks.take (i + s.blockSize) ++ [] :: s.blocks.drop (i + s.blockSize) :=
    insertIdx_decomp (i + s.blockSize) s.blocks [] (by omega)
  have hlen_takeib : (s.blocks.take (i + s.blockSize)).length = i + s.blockSize := by
    rw [List.length_take]
    omega
  have happ : applySeg (s.blocks.insertIdx (i + s.blockSize) []) i (i + s.blockSize)
      (spreadSeg s.blockSize) = s.blocks.take i ++
      spreadSeg s.blockSize ((s.blocks.drop i).take s.blockSize ++ [[]]) ++
      s.blocks.drop (i + s.blockSize) := by
    rw [applySeg, hX]
    have e1 : ((s.blocks.take (i + s.blockSize) ++
        [] :: s.blocks.drop (i + s.blockSize)).take i : List (List T)) = s.blocks.take i := by
      rw [List.take_append_of_le_length (by omega), List.take_take]
      rw [show min i (i + s.blockSize) = i from by omega]
    have e2 : ((s.blocks.take (i + s.blockSize) ++
        [] :: s.blocks.drop (i + s.blockSize)).drop i : List (List T)) =
        (s.blocks.drop i).take s.blockSize ++ [] :: s.blocks.drop (i + s.blockSize) := by
      rw [List.drop_append_of_le_length (by omega), List.drop_take]
      rw [show i + s.blockSize - i = s.blockSize from by omega]
    have e3 : (((s.blocks.drop i).take s.blockSize ++
        [] :: s.blocks.drop (i + s.blockSize)).take (i + s.blockSize + 1 - i) :
        List (List T)) = (s.blocks.drop i).take s.blockSize ++ [[]] := by
      rw [show i + s.blockSize + 1 - i =
        ((s.blocks.drop i).take s.blockSize).length + 1 from by omega]
      rw [List.take_append]
      simp
    have e4 : ((s.blocks.take (i + s.blockSize) ++
        [] :: s.blocks.drop (i + s.blockSize)).drop (i + s.blockSize + 1) :
        List (List T)) = s.blocks.drop (i + s.blockSize) := by
      rw [show i + s.blockSize + 1 = (s.blocks.take (i + s.blockSize)).length + 1 from by omega]
      rw [List.drop_append]
      simp
    rw [e1, e2, e3, e4]
  have hlen_take : (s.blocks.take i).length = i := by
    rw [List.length_take]
    omega
  have hassoc : s.blocks.take i ++ (h0 :: tl') ++ s.blocks.drop (i + s.blockSize) =
      s.blocks.take i ++ (h0 :: (tl' ++ s.blocks.drop (i + s.blockSize))) := by
    simp
  rw [happ, hseg0, hassoc, getD_append_at' _ _ _ _ i hlen_take,
    set_append_len' _ _ _ _ i hlen_take] at hred
  refine ⟨h0, tl', ?_, ?_, ?_, ?_⟩
  · rw [hred]
    simp only [List.cons_append, List.append_assoc]
  · have htl'len : tl'.length = s.blockSize := by
      have h4 := congrArg List.length htl'map
      simpa using h4
    simp [htl'len]
  · intro blk hblk
    rcases List.mem_cons.mp hblk with rfl | h3
    · exact hh0
    · have hmem : blk.length ∈ tl'.map List.length := List.mem_map_of_mem _ h3
      rw [htl'map] at hmem
      exact List.eq_of_mem_replicate hmem
  · have h5 := hflat
    rw [hseg0] at h5
    rw [h5]
    simp

theorem blocky_spread_redistribution_witness :
    InvB (⟨[[1, 2, 3, 4], [5, 6, 7, 8], [9, 10, 11, 12], [13]], 13, 3⟩ :
      BlockyLinkedList Nat) ∧
    ¬((1 : Nat) = 13 ∨ (13 = 0 ∧ 1 = 0)) ∧
    locateB (⟨[[1, 2, 3, 4], [5, 6, 7, 8], [9, 10, 11, 12], [13]], 13, 3⟩ :
      BlockyLinkedList Nat) 1 = .ok (0, 1) ∧
    (∃ u' seg,
      insertBLL (⟨[[1, 2, 3, 4], [5, 6, 7, 8], [9, 10, 11, 12], [13]], 13, 3⟩ :
          BlockyLinkedList Nat) 1 99 = .ok
        ⟨(([[1, 2, 3, 4], [5, 6, 7, 8], [9, 10, 11, 12], [13]] :
            List (List Nat)).take 0 ++ (u'.insertIdx 1 99 :: seg)) ++
          ([[1, 2, 3, 4], [5, 6, 7, 8], [9, 10, 11, 12], [13]] :
            List (List Nat)).drop (0 + 3), 13 + 1, 3⟩ ∧
      (u' :: seg).length = 3 + 1 ∧
      (∀ blk ∈ u' :: seg, blk.length = 3) ∧
      (u' :: seg).flatten = ((([[1, 2, 3, 4], [5, 6, 7, 8], [9, 10, 11, 12], [13]] :
        List (List Nat)).drop 0).take 3).flatten) :=
  ⟨invB_mk _ _ _ (by decide) (by decide) (by decide) (by decide) (by decide),
   by decide, by decide,
   blocky_spread_redistribution Nat
     ⟨[[1, 2, 3, 4], [5, 6, 7, 8], [9, 10, 11, 12], [13]], 13, 3⟩ 1 99 0 1
     (invB_mk _ _ _ (by decide) (by decide) (by decide) (by decide) (by decide))
     (by decide) (by decide) (by decide) (by decide)⟩

end Dsa
